import Mathlib

/-!
# clio: the agent loop and its tool executor

A shallow embedding of `tools/tools.go` and `ui/model.go`.

* Go strings are Lean `String`s.
* The standard library and the operating system (`os.ReadFile`, `os.Create`,
  `exec.CommandContext(..).CombinedOutput`) are a parameter `Runtime σ` acting on a world
  state `σ`; an `error` value is represented by the text of its `Error()`.
* `encoding/json` is modelled by a recursive-descent parser of RFC 8259 texts followed by the
  decoding of a top-level object into a struct of string fields.
* A `tea.Cmd` is a value of the type `Cmd`; a batch of commands is a list, `nil` is absent.
* A string rendered by a lipgloss style is kept unevaluated as a `Rendered` record.
-/

namespace Clio

/-! ## encoding/json -/

/-- A parsed JSON text. A number keeps its literal. -/
inductive JValue where
  | null
  | bool (b : Bool)
  | number (literal : String)
  | string (s : String)
  | array (items : List JValue)
  | object (members : List (String × JValue))

/-- The error values of `json.Unmarshal`: a `*SyntaxError`, or an `*UnmarshalTypeError` naming the
JSON value and the Go struct field it could not be stored in (empty at top level). -/
inductive JsonError where
  | SyntaxError
  | UnmarshalTypeError (Value : String) (Field : String)
  deriving DecidableEq, Repr

/-- The nesting depth beyond which the scanner gives up (`maxNestingDepth`). -/
def maxNestingDepth : Nat := 10000

/-- The insignificant white space of JSON (`isSpace` of the scanner). -/
def isSpace (c : Char) : Bool :=
  c == ' ' || c == '\t' || c == '\r' || c == '\n'

/-- Drop leading JSON white space. -/
def skipSpace : List Char → List Char
  | [] => []
  | c :: cs => if isSpace c then skipSpace cs else c :: cs

/-- The value of a hexadecimal digit. -/
def hexDigit (c : Char) : Option Nat :=
  if '0' ≤ c ∧ c ≤ '9' then some (c.toNat - '0'.toNat)
  else if 'a' ≤ c ∧ c ≤ 'f' then some (c.toNat - 'a'.toNat + 10)
  else if 'A' ≤ c ∧ c ≤ 'F' then some (c.toNat - 'A'.toNat + 10)
  else none

/-- The number written by four hexadecimal digits at the head of the input, and the input after
them (`getu4` without the leading `\u`). -/
def hex4 : List Char → Option (Nat × List Char)
  | a :: b :: c :: d :: rest =>
    match hexDigit a, hexDigit b, hexDigit c, hexDigit d with
    | some x, some y, some z, some w => some (((x * 16 + y) * 16 + z) * 16 + w, rest)
    | _, _, _, _ => none
  | _ => none

/-- The replacement character U+FFFD (`unicode.ReplacementChar`). -/
def replacementChar : Char := Char.ofNat 0xFFFD

/-- The code unit of a `\u` escape at the head of the input, and the input after the escape. -/
def escapedUnit : List Char → Option (Nat × List Char)
  | c :: e :: rest => if c = '\\' ∧ e = 'u' then hex4 rest else none
  | _ => none

/-- The rune of a `\u` escape with code unit `u`, given the input after it: a high surrogate
followed by an escaped low surrogate is one rune and the pair is consumed, any other surrogate is
U+FFFD (`unquoteBytes`, with `utf16.DecodeRune`). -/
def decodeEscapedRune (u : Nat) (rest : List Char) : Char × List Char :=
  if 0xD800 ≤ u ∧ u < 0xE000 then
    match escapedUnit rest with
    | some (v, rest1) =>
      if u < 0xDC00 ∧ 0xDC00 ≤ v ∧ v < 0xE000 then
        (Char.ofNat ((u - 0xD800) * 0x400 + (v - 0xDC00) + 0x10000), rest1)
      else (replacementChar, rest)
    | none => (replacementChar, rest)
  else (Char.ofNat u, rest)

/-- The rune an escape sequence denotes, from the character after the backslash on, and the
input after the sequence. -/
def readEscape : List Char → Option (Char × List Char)
  | [] => none
  | c :: r =>
    if c = '"' then some ('"', r)
    else if c = '\\' then some ('\\', r)
    else if c = '/' then some ('/', r)
    else if c = 'b' then some (Char.ofNat 8, r)
    else if c = 'f' then some (Char.ofNat 12, r)
    else if c = 'n' then some ('\n', r)
    else if c = 'r' then some ('\r', r)
    else if c = 't' then some ('\t', r)
    else if c = 'u' then
      match hex4 r with
      | some (u, r1) => some (decodeEscapedRune u r1)
      | none => none
    else none

/-- The string literal whose opening quote has just been read: its unquoted text and the input
after the closing quote. The fuel bounds the number of characters read. -/
def parseString : Nat → List Char → List Char → Option (String × List Char)
  | 0, _, _ => none
  | fuel + 1, cs, acc =>
    match cs with
    | [] => none
    | c :: rest =>
      if c = '"' then some (String.mk acc, rest)
      else if c = '\\' then
        match readEscape rest with
        | some (ch, r) => parseString fuel r (acc ++ [ch])
        | none => none
      else if c.toNat < 0x20 then none
      else parseString fuel rest (acc ++ [c])

/-- Drop leading decimal digits. -/
def dropDigits : List Char → List Char
  | [] => []
  | c :: cs => if c.isDigit then dropDigits cs else c :: cs

/-- The input after an optional exponent part of a number. -/
def scanExponent : List Char → Option (List Char)
  | [] => some []
  | e :: r =>
    if e = 'e' ∨ e = 'E' then
      match r with
      | [] => none
      | d :: x =>
        if d = '+' ∨ d = '-' then
          match x with
          | [] => none
          | d1 :: x1 => if d1.isDigit then some (dropDigits x1) else none
        else if d.isDigit then some (dropDigits x) else none
    else some (e :: r)

/-- The input after an optional fraction part and an optional exponent part of a number. -/
def scanFraction : List Char → Option (List Char)
  | [] => some []
  | p :: r =>
    if p = '.' then
      match r with
      | [] => none
      | d :: x => if d.isDigit then scanExponent (dropDigits x) else none
    else scanExponent (p :: r)

/-- The input after the digits of the integer part of a number. -/
def scanInteger : List Char → Option (List Char)
  | [] => none
  | c :: r =>
    if c = '0' then scanFraction r
    else if '1' ≤ c ∧ c ≤ '9' then scanFraction (dropDigits r)
    else none

/-- The input after a number literal: `-? (0 | [1-9][0-9]*) (. [0-9]+)? ([eE] [+-]? [0-9]+)?`. -/
def scanNumber : List Char → Option (List Char)
  | [] => none
  | c :: r => if c = '-' then scanInteger r else scanInteger (c :: r)

/-- The input after the given literal name, when the input starts with it. -/
def readLiteral (name : List Char) (cs : List Char) : Option (List Char) :=
  if name.isPrefixOf cs then some (cs.drop name.length) else none

/-- A string, a literal name or a number at the head of the input: the value and the input after
it. -/
def parseScalar : List Char → Option (JValue × List Char)
  | [] => none
  | c :: r =>
    if c = '"' then
      match parseString (r.length + 1) r [] with
      | some (s, r1) => some (.string s, r1)
      | none => none
    else if c = 't' then (readLiteral "true".data (c :: r)).map fun r1 => (.bool true, r1)
    else if c = 'f' then (readLiteral "false".data (c :: r)).map fun r1 => (.bool false, r1)
    else if c = 'n' then (readLiteral "null".data (c :: r)).map fun r1 => (.null, r1)
    else
      match scanNumber (c :: r) with
      | some r1 => some (.number (String.mk ((c :: r).take ((c :: r).length - r1.length))), r1)
      | none => none

mutual
/-- One JSON value at the head of the input (white space already skipped) inside `depth` open
arrays and objects: the value and the input after it. -/
def parseValue : Nat → Nat → List Char → Option (JValue × List Char)
  | 0, _, _ => none
  | fuel + 1, depth, cs =>
    match cs with
    | [] => none
    | c :: r =>
      if c = '\x7b' then
        if depth + 1 > maxNestingDepth then none
        else if (skipSpace r).head? = some '\x7d' then some (.object [], (skipSpace r).tail)
        else parseMembers fuel (depth + 1) (skipSpace r) []
      else if c = '[' then
        if depth + 1 > maxNestingDepth then none
        else if (skipSpace r).head? = some ']' then some (.array [], (skipSpace r).tail)
        else parseElements fuel (depth + 1) (skipSpace r) []
      else parseScalar (c :: r)
/-- The members of an object after its opening brace, from a key on. -/
def parseMembers : Nat → Nat → List Char → List (String × JValue) → Option (JValue × List Char)
  | 0, _, _, _ => none
  | fuel + 1, depth, cs, acc =>
    match cs with
    | [] => none
    | q :: r =>
      if q = '"' then
        match parseString (r.length + 1) r [] with
        | none => none
        | some (key, r1) =>
          match skipSpace r1 with
          | [] => none
          | colon :: r2 =>
            if colon = ':' then
              match parseValue fuel depth (skipSpace r2) with
              | none => none
              | some (v, r3) =>
                match skipSpace r3 with
                | [] => none
                | sep :: r4 =>
                  if sep = ',' then parseMembers fuel depth (skipSpace r4) (acc ++ [(key, v)])
                  else if sep = '\x7d' then some (.object (acc ++ [(key, v)]), r4)
                  else none
            else none
      else none
/-- The elements of an array after its opening bracket, from a value on. -/
def parseElements : Nat → Nat → List Char → List JValue → Option (JValue × List Char)
  | 0, _, _, _ => none
  | fuel + 1, depth, cs, acc =>
    match parseValue fuel depth cs with
    | none => none
    | some (v, r) =>
      match skipSpace r with
      | [] => none
      | sep :: r1 =>
        if sep = ',' then parseElements fuel depth (skipSpace r1) (acc ++ [v])
        else if sep = ']' then some (.array (acc ++ [v]), r1)
        else none
end

/-- The JSON value a text denotes, `none` when the text is not valid JSON (`checkValid` fails).
A call of the parser consumes a character or is followed by one that does, so that twice the
length of the text is fuel enough (`parseValue_fuel`). -/
def parseJSON (data : String) : Option JValue :=
  let cs := skipSpace data.data
  match parseValue (2 * cs.length + 1) 0 cs with
  | some (v, rest) => if (skipSpace rest).isEmpty then some v else none
  | none => none

/-- Whether a text is valid JSON. -/
def validJSON (data : String) : Bool := (parseJSON data).isSome

/-- The JSON kind named by an `UnmarshalTypeError`. -/
def JValue.kind : JValue → String
  | .null => "null"
  | .bool _ => "bool"
  | .number _ => "number"
  | .string _ => "string"
  | .array _ => "array"
  | .object _ => "object"

/-- A name with its ASCII letters in upper case. The field names of this program are ASCII and
hold neither `k` nor `s`, so that no other rune folds onto one of their letters. -/
def foldName (s : String) : String :=
  String.mk (s.data.map fun c => if 'a' ≤ c ∧ c ≤ 'z' then Char.ofNat (c.toNat - 32) else c)

/-- The struct field an object key is stored in: the field of that exact name, else a field whose
name differs in letter case only. -/
def findField (fields : List String) (key : String) : Option String :=
  match fields.find? (fun f => f == key) with
  | some f => some f
  | none => fields.find? (fun f => foldName f == foldName key)

/-- The decoder while it walks an object: the fields stored so far, the latest first, and the
first error it saved. -/
structure decodeState where
  values : List (String × String)
  savedError : Option JsonError

/-- Store one member of the object: a key that names no field is skipped, a string is stored, a
`null` leaves the field as it is, any other value is a type error and decoding goes on. -/
def storeMember (fields : List String) (d : decodeState) (member : String × JValue) : decodeState :=
  match findField fields member.1 with
  | none => d
  | some f =>
    match member.2 with
    | .string s => { d with values := (f, s) :: d.values }
    | .null => d
    | v =>
      match d.savedError with
      | some _ => d
      | none => { d with savedError := some (.UnmarshalTypeError v.kind f) }

/-- The function `json.Unmarshal` into a zero-valued struct whose fields, named `fields` by their
`json` tags, are all strings: the value of each field. A field the text does not set keeps the
zero value `""`; a missing field is no error. -/
def Unmarshal (fields : List String) (data : String) : Except JsonError (String → String) :=
  match parseJSON data with
  | none => .error .SyntaxError
  | some (.object members) =>
    let d := members.foldl (storeMember fields) ⟨[], none⟩
    match d.savedError with
    | some err => .error err
    | none => .ok (fun f => (d.values.lookup f).getD "")
  | some .null => .ok (fun _ => "")
  | some v => .error (.UnmarshalTypeError v.kind "")

/-! ## The environment of the tools -/

/-- The Go runtime and the operating system, acting on a world state `σ`. An `error` is the text
of its `Error()`; an open file is a descriptor number. -/
structure Runtime (σ : Type) where
  /-- The text `err.Error()` of an error of `json.Unmarshal`. -/
  jsonErrorText : JsonError → String
  /-- The call `os.ReadFile(name)`. -/
  ReadFile : String → σ → Except String String × σ
  /-- The call `os.Create(name)`. -/
  Create : String → σ → Except String Nat × σ
  /-- The call `file.WriteString(s)`. -/
  WriteString : Nat → String → σ → Except String Unit × σ
  /-- The call `file.Close()`. -/
  Close : Nat → σ → σ
  /-- The combined output and the error of `sh -c command` run under the 30 second deadline. -/
  CombinedOutput : String → σ → (String × Option String) × σ

/-! ## tools/tools.go -/

variable {σ : Type}

/-- The argument struct of `executeRead`. -/
structure ReadArgs where
  FilePath : String

/-- The argument struct of `executeWrite`. -/
structure WriteArgs where
  FilePath : String
  Content : String

/-- The argument struct of `executeBash`. -/
structure BashArgs where
  Command : String

/-- The function `executeRead`. -/
def executeRead (rt : Runtime σ) (arguments : String) (w : σ) : String × σ :=
  match Unmarshal ["file_path"] arguments with
  | .error err => ("error parsing arguments: " ++ rt.jsonErrorText err, w)
  | .ok get =>
    let args : ReadArgs := ⟨get "file_path"⟩
    match rt.ReadFile args.FilePath w with
    | (.error err, w1) => ("error reading file: " ++ err, w1)
    | (.ok data, w1) => (data, w1)

/-- The function `executeWrite`. The deferred `file.Close()` runs on every return after `os.Create`
has succeeded. -/
def executeWrite (rt : Runtime σ) (arguments : String) (w : σ) : String × σ :=
  match Unmarshal ["file_path", "content"] arguments with
  | .error err => ("error parsing arguments: " ++ rt.jsonErrorText err, w)
  | .ok get =>
    let args : WriteArgs := ⟨get "file_path", get "content"⟩
    match rt.Create args.FilePath w with
    | (.error err, w1) => ("error creating or truncating file: " ++ err, w1)
    | (.ok file, w1) =>
      match rt.WriteString file args.Content w1 with
      | (.error err, w2) => ("error writing to file: " ++ err, rt.Close file w2)
      | (.ok _, w2) => ("successfully written to: " ++ args.FilePath, rt.Close file w2)

/-- The function `executeBash`. -/
def executeBash (rt : Runtime σ) (arguments : String) (w : σ) : String × σ :=
  match Unmarshal ["command"] arguments with
  | .error err => ("error parsing arguments: " ++ rt.jsonErrorText err, w)
  | .ok get =>
    let args : BashArgs := ⟨get "command"⟩
    match rt.CombinedOutput args.Command w with
    | ((out, some err), w1) => (out ++ "\nerror: " ++ err, w1)
    | ((out, none), w1) => (out, w1)

/-- The function `Execute`: the result text and the world after the call. -/
def Execute (rt : Runtime σ) (name arguments : String) (w : σ) : String × σ :=
  if name = "Read" then executeRead rt arguments w
  else if name = "Write" then executeWrite rt arguments w
  else if name = "Bash" then executeBash rt arguments w
  else ("unknown tool: " ++ name, w)

/-- A call into the operating system. -/
inductive SysCall where
  | ReadFile (name : String)
  | Create (name : String)
  | WriteString (file : Nat) (s : String)
  | Close (file : Nat)
  | CombinedOutput (command : String)
  deriving DecidableEq, Repr

/-- A machine for running examples: it has no files to read, creates any file with a non-empty
name, and every shell command prints nothing and succeeds. The world state is the list of
the calls made so far. -/
def emptyMachine : Runtime (List SysCall) where
  jsonErrorText := fun err =>
    match err with
    | .SyntaxError => "invalid JSON"
    | .UnmarshalTypeError v f => "json: cannot unmarshal " ++ v ++ " into Go struct field ." ++ f
  ReadFile := fun name w =>
    (.error ("open " ++ name ++ ": no such file or directory"), w ++ [.ReadFile name])
  Create := fun name w =>
    if name = "" then (.error "open : no such file or directory", w ++ [.Create name])
    else (.ok 3, w ++ [.Create name])
  WriteString := fun file s w => (.ok (), w ++ [.WriteString file s])
  Close := fun file w => w ++ [.Close file]
  CombinedOutput := fun command w => (("", none), w ++ [.CombinedOutput command])

/-! ## Library functions used by ui/model.go -/

/-- The function `unicode.IsSpace`: the runes with the Unicode property White_Space. -/
def unicode.IsSpace (r : Char) : Bool :=
  let n := r.toNat
  (0x09 ≤ n && n ≤ 0x0D) || n == 0x20 || n == 0x85 || n == 0xA0 || n == 0x1680 ||
    (0x2000 ≤ n && n ≤ 0x200A) || n == 0x2028 || n == 0x2029 || n == 0x202F || n == 0x205F ||
    n == 0x3000

/-- The function `strings.TrimSpace`: the string without its leading and trailing white space. -/
def strings.TrimSpace (s : String) : String :=
  String.mk ((s.data.dropWhile unicode.IsSpace).reverse.dropWhile unicode.IsSpace).reverse

/-! ## ui/model.go: messages -/

/-- The lipgloss styles declared by the package. -/
inductive Style where
  | userStyle
  | assistantStyle
  | toolCallStyle
  | errorStyle
  | welcomeStyle
  | spinnerStyle
  | inputStyle
  deriving DecidableEq, Repr

/-- The string `style.Render(text)`, or `style.Width(w).Render(text)` when a width is given, kept
unevaluated. -/
structure Rendered where
  style : Style
  width : Option Int
  text : String
  deriving DecidableEq, Repr

/-- The function called by a tool call: its name and its JSON arguments. -/
structure FunctionCall where
  Name : String
  Arguments : String
  deriving DecidableEq, Repr

/-- A tool call of a model response (`openai.ChatCompletionMessageToolCallUnion`). -/
structure ToolCall where
  ID : String
  Function : FunctionCall
  deriving DecidableEq, Repr

/-- A tool call of a request (`openai.ChatCompletionMessageToolCallUnionParam`). -/
structure ToolCallParam where
  ID : String
  Function : FunctionCall
  deriving DecidableEq, Repr

/-- The method `ToParam` of a tool call. -/
def ToolCall.ToParam (tc : ToolCall) : ToolCallParam := ⟨tc.ID, tc.Function⟩

/-- A message of the model-facing transcript (`openai.ChatCompletionMessageParamUnion`). -/
inductive Message where
  | OfSystem (Content : String)
  | OfUser (Content : String)
  | OfAssistant (Content : String) (ToolCalls : List ToolCallParam)
  | OfTool (Content : String) (ToolCallID : String)
  deriving DecidableEq, Repr

/-- The function `openai.SystemMessage`. -/
def SystemMessage (content : String) : Message := .OfSystem content

/-- The function `openai.UserMessage`. -/
def UserMessage (content : String) : Message := .OfUser content

/-- The function `openai.ToolMessage`. -/
def ToolMessage (content toolCallID : String) : Message := .OfTool content toolCallID

/-- The message of a choice (`openai.ChatCompletionMessage`). -/
structure ChatCompletionMessage where
  Content : String
  ToolCalls : List ToolCall
  deriving DecidableEq, Repr

/-- A choice of a response (`openai.ChatCompletionChoice`). -/
structure ChatCompletionChoice where
  Message : ChatCompletionMessage
  deriving DecidableEq, Repr

/-- The type of a key press, as far as `handleKeyPress` tells them apart. -/
inductive KeyType where
  | KeyCtrlC
  | KeyEnter
  | KeyRunes
  | KeyOther (code : Int)
  deriving DecidableEq, Repr

/-- A message delivered to `Update` (`tea.Msg`). -/
inductive Msg where
  | WindowSizeMsg (Width Height : Int)
  | KeyMsg (type : KeyType) (Runes : List Char)
  | apiResponseMsg (choice : ChatCompletionChoice)
  | apiErrorMsg (err : String)
  | toolResultsMsg (results : List Message)
  | TickMsg (tag : Nat)
  | other (tag : Nat)
  deriving DecidableEq, Repr

/-- A command returned by `Update` (`tea.Cmd`). The closure of `sendToAPI` is given by the values
it captured, the closure of `executeTools` by the tool calls it captured. -/
inductive Cmd where
  | Quit
  | Blink
  | Tick
  | widget (tag : Nat)
  | sendToAPI (messages : List Message) (toolDefs : List String) (client : String) (model : String)
  | executeTools (toolCalls : List ToolCall)
  deriving DecidableEq, Repr

/-! ## ui/model.go: the model -/

/-- The state of the text input, as far as the program reads and writes it. -/
structure TextArea where
  value : String
  width : Int
  height : Int
  deriving DecidableEq, Repr

/-- The state of the viewport, as far as the program reads and writes it: its size, the entries
last set as its content, the spinner line under them, and the width they were wrapped to. -/
structure Viewport where
  Width : Int
  Height : Int
  content : List Rendered
  wrapWidth : Int
  atBottom : Bool
  deriving DecidableEq, Repr

/-- The state of the spinner: its current frame and its tag. -/
structure Spinner where
  view : String
  tag : Nat
  deriving DecidableEq, Repr

/-- The `Update` methods of the three bubbles: the new state of the widget and the tag of the
command it returns, if any. -/
structure Bubbles where
  textareaUpdate : TextArea → Msg → TextArea × Option Nat
  viewportUpdate : Viewport → Msg → Viewport × Option Nat
  spinnerUpdate : Spinner → Msg → Spinner × Option Nat

/-- The struct `Model`. -/
structure Model where
  viewport : Viewport
  textarea : TextArea
  spinner : Spinner
  messages : List Rendered
  apiMessages : List Message
  tools : List String
  client : String
  model : String
  waiting : Bool
  deriving DecidableEq, Repr

/-- The function `NewModel`. -/
def NewModel (client : String) (toolDefs : List String) (model : String) : Model where
  messages := [⟨.welcomeStyle, none, "Welcome! Type a message and press Enter to chat."⟩]
  apiMessages := [SystemMessage
    ("You are clio, a coding assistant running in the user\x27s terminal. " ++
      "Use your tools to explore the codebase and make changes. Be concise in your responses.")]
  viewport := ⟨80, 20, [], 0, true⟩
  textarea := ⟨"", 40, 1⟩
  spinner := ⟨"⣾ ", 0⟩
  tools := toolDefs
  client := client
  model := model
  waiting := false

/-- The method `Init`. -/
def Model.Init (_m : Model) : List Cmd := [.Blink, .Tick]

/-- The method `sendToAPI`: the command holds a copy of the transcript as it stands. -/
def Model.sendToAPI (m : Model) : Cmd := .sendToAPI m.apiMessages m.tools m.client m.model

/-- The message the command of `sendToAPI` ends with, given what the client returned: an error, or
the list of choices of the response. -/
def sendToAPI.run (resp : Except String (List ChatCompletionChoice)) : Msg :=
  match resp with
  | .error err => .apiErrorMsg err
  | .ok [] => .apiErrorMsg "no choices in response"
  | .ok (choice :: _) => .apiResponseMsg choice

/-- The method `refreshViewport`. -/
def Model.refreshViewport (m : Model) : Model :=
  let content := if m.waiting then
      m.messages ++ [Rendered.mk .spinnerStyle none (m.spinner.view ++ " Thinking...")]
    else m.messages
  { m with viewport :=
      { m.viewport with content := content, wrapWidth := m.viewport.Width, atBottom := true } }

/-- The method `handleWindowSize`. -/
def Model.handleWindowSize (m : Model) (Width Height : Int) : Model :=
  let m1 := { m with textarea := { m.textarea with width := Width } }
  let m2 := { m1 with viewport :=
    { m1.viewport with Width := Width, Height := Height - m1.textarea.height - 2 } }
  m2.refreshViewport

/-- The method `handleKeyPress`: the model after the call and the command returned, if any. -/
def Model.handleKeyPress (m : Model) (type : KeyType) : Model × Option (List Cmd) :=
  match type with
  | .KeyCtrlC => (m, some [.Quit])
  | .KeyEnter =>
    if m.waiting then (m, none)
    else
      let userMsg := strings.TrimSpace m.textarea.value
      if userMsg = "" then (m, none)
      else
        let m1 := { m with messages :=
          m.messages ++ [Rendered.mk .userStyle (some m.viewport.Width) ("▶ " ++ userMsg)] }
        let m2 := { m1 with apiMessages := m1.apiMessages ++ [UserMessage userMsg] }
        let m3 := { m2 with textarea := { m2.textarea with value := "" } }
        let m4 := { m3 with waiting := true }
        let m5 := m4.refreshViewport
        (m5, some [m5.sendToAPI, .Tick])
  | _ => (m, none)

/-- The method `executeTools`. -/
def executeTools (toolCalls : List ToolCall) : Cmd := .executeTools toolCalls

/-- The loop of the command of `executeTools`: the results appended to `results`, and the world
after the calls. -/
def executeTools.loop (rt : Runtime σ) :
    List ToolCall → List Message → σ → List Message × σ
  | [], results, w => (results, w)
  | toolCall :: rest, results, w =>
    let result := Execute rt toolCall.Function.Name toolCall.Function.Arguments w
    executeTools.loop rt rest (results ++ [ToolMessage result.1 toolCall.ID]) result.2

/-- The message the command of `executeTools` ends with, and the world after it has run. -/
def executeTools.run (rt : Runtime σ) (toolCalls : List ToolCall) (w : σ) : Msg × σ :=
  let done := executeTools.loop rt toolCalls [] w
  (.toolResultsMsg done.1, done.2)

/-- The method `handleAPIResponse`. -/
def Model.handleAPIResponse (m : Model) (choice : ChatCompletionChoice) :
    Model × Option (List Cmd) :=
  let toolCallParams := choice.Message.ToolCalls.map ToolCall.ToParam
  let m1 := { m with apiMessages :=
    m.apiMessages ++ [Message.OfAssistant choice.Message.Content toolCallParams] }
  if choice.Message.ToolCalls.length > 0 then
    let m2 := { m1 with messages := m1.messages ++ choice.Message.ToolCalls.map (fun (toolCall : ToolCall) =>
      Rendered.mk Style.toolCallStyle none
        ("⚡ " ++ toolCall.Function.Name ++ "(" ++ toolCall.Function.Arguments ++ ")")) }
    let m3 := m2.refreshViewport
    (m3, some [executeTools choice.Message.ToolCalls])
  else
    let m2 := { m1 with messages :=
      m1.messages ++ [Rendered.mk .assistantStyle (some m1.viewport.Width) choice.Message.Content] }
    let m3 := { m2 with waiting := false }
    (m3.refreshViewport, none)

/-- The method `handleToolResults`. -/
def Model.handleToolResults (m : Model) (results : List Message) : Model × Option (List Cmd) :=
  let m1 := { m with apiMessages := m.apiMessages ++ results }
  (m1, some [m1.sendToAPI])

/-- The method `handleAPIError`. -/
def Model.handleAPIError (m : Model) (err : String) : Model :=
  let m1 := { m with messages :=
    m.messages ++ [Rendered.mk .errorStyle (some m.viewport.Width) ("✖ " ++ err)] }
  let m2 := { m1 with waiting := false }
  m2.refreshViewport

/-- The method `handleSpinnerTick`. -/
def Model.handleSpinnerTick (B : Bubbles) (m : Model) (msg : Msg) : Model × Option Cmd :=
  if m.waiting then
    let updated := B.spinnerUpdate m.spinner msg
    let m1 := { m with spinner := updated.1 }
    (m1.refreshViewport, updated.2.map Cmd.widget)
  else (m, none)

/-- The end of `Update`: the text input and the viewport handle the message, and their commands
are batched after `cmds`. -/
def Model.updateWidgets (B : Bubbles) (m : Model) (msg : Msg) (cmds : List Cmd) :
    Model × List Cmd :=
  let ta := B.textareaUpdate m.textarea msg
  let m1 := { m with textarea := ta.1 }
  let vp := B.viewportUpdate m1.viewport msg
  let m2 := { m1 with viewport := vp.1 }
  (m2, cmds ++ (ta.2.map Cmd.widget).toList ++ (vp.2.map Cmd.widget).toList)

/-- The method `Update`: the model returned and the commands returned, a batch being the list of
its commands. -/
def Model.Update (B : Bubbles) (m : Model) (msg : Msg) : Model × List Cmd :=
  match msg with
  | .WindowSizeMsg Width Height => (m.handleWindowSize Width Height).updateWidgets B msg []
  | .KeyMsg type _ =>
    match m.handleKeyPress type with
    | (m1, some cmd) => (m1, cmd)
    | (m1, none) => m1.updateWidgets B msg []
  | .apiResponseMsg choice =>
    match m.handleAPIResponse choice with
    | (m1, some cmd) => (m1, cmd)
    | (m1, none) => m1.updateWidgets B msg []
  | .toolResultsMsg results =>
    match m.handleToolResults results with
    | (m1, some cmd) => (m1, cmd)
    | (m1, none) => m1.updateWidgets B msg []
  | .apiErrorMsg err => (m.handleAPIError err).updateWidgets B msg []
  | .TickMsg _ =>
    match m.handleSpinnerTick B msg with
    | (m1, some cmd) => m1.updateWidgets B msg [cmd]
    | (m1, none) => m1.updateWidgets B msg []
  | .other _ => m.updateWidgets B msg []

/-! ## The session: the model, the world and the commands in flight -/

/-- Whether a command is a model call or a batch of tool executions, the two commands whose
result message comes back into `Update`. -/
def Cmd.isCall : Cmd → Bool
  | .sendToAPI _ _ _ _ => true
  | .executeTools _ => true
  | _ => false

/-- Whether a command is a model call. -/
def Cmd.isModelCall : Cmd → Bool
  | .sendToAPI _ _ _ _ => true
  | _ => false

/-- Whether a message is the result message of a model call or of a batch of tool executions. -/
def Msg.isResult : Msg → Bool
  | .apiResponseMsg _ => true
  | .apiErrorMsg _ => true
  | .toolResultsMsg _ => true
  | _ => false

/-- A running program: the model held by the event loop, the world the tools act on, and the model
calls and tool batches that `Update` has returned and whose result message it has not received. -/
structure Session (σ : Type) where
  model : Model
  world : σ
  outstanding : List Cmd

/-- What the event loop delivers next: a message from the terminal or a widget, the end of a model
call with what the client returned, or the end of a batch of tool executions. -/
inductive Event where
  | input (msg : Msg)
  | modelCallDone (call : Cmd) (resp : Except String (List ChatCompletionChoice))
  | toolsDone (toolCalls : List ToolCall)

/-- An event can happen in a session: a message from the terminal is no result message, and a
command can only end while it is outstanding. -/
def Event.enabled (s : Session σ) : Event → Prop
  | .input msg => msg.isResult = false
  | .modelCallDone call _ => call.isModelCall = true ∧ call ∈ s.outstanding
  | .toolsDone toolCalls => Cmd.executeTools toolCalls ∈ s.outstanding

/-- The message an event delivers to `Update`, and the world when it is delivered. -/
def Event.msg (rt : Runtime σ) (w : σ) : Event → Msg × σ
  | .input msg => (msg, w)
  | .modelCallDone _ resp => (sendToAPI.run resp, w)
  | .toolsDone toolCalls => executeTools.run rt toolCalls w

/-- The commands outstanding once an event is taken off. -/
def Event.settle (outstanding : List Cmd) : Event → List Cmd
  | .input _ => outstanding
  | .modelCallDone call _ => outstanding.erase call
  | .toolsDone toolCalls => outstanding.erase (Cmd.executeTools toolCalls)

/-- One step of the event loop: the event is delivered to `Update`, whose model replaces the old
one and whose model calls and tool batches become outstanding. -/
def Session.step (rt : Runtime σ) (B : Bubbles) (s : Session σ) (ev : Event) : Session σ :=
  let delivered := ev.msg rt s.world
  let updated := s.model.Update B delivered.1
  ⟨updated.1, delivered.2, ev.settle s.outstanding ++ updated.2.filter Cmd.isCall⟩

/-- The sessions reachable from `NewModel` in a world `w0`. -/
inductive Reachable (rt : Runtime σ) (B : Bubbles) (client : String) (toolDefs : List String)
    (model : String) (w0 : σ) : Session σ → Prop where
  | init : Reachable rt B client toolDefs model w0 ⟨NewModel client toolDefs model, w0, []⟩
  | step {s : Session σ} (ev : Event) :
      Reachable rt B client toolDefs model w0 s → ev.enabled s →
      Reachable rt B client toolDefs model w0 (s.step rt B ev)

/-! ## The transcript invariant -/

/-- The tool-call ids whose results are due after a message, given the ids due before it; `none`
when the message breaks the invariant: a `Tool` message must answer the first id due, and any other
message may only come when no result is due. -/
def expectAfter : List String → Message → Option (List String)
  | [], .OfTool _ _ => none
  | id :: ids, .OfTool _ toolCallID => if toolCallID = id then some ids else none
  | [], .OfAssistant _ toolCalls => some (toolCalls.map fun tc => tc.ID)
  | [], _ => some []
  | _ :: _, _ => none

/-- The ids due at the end of a list of messages, given the ids due at its start. -/
def expectAfterAll : List String → List Message → Option (List String)
  | due, [] => some due
  | due, msg :: rest =>
    match expectAfter due msg with
    | none => none
    | some due1 => expectAfterAll due1 rest

/-- The transcript invariant: each `Assistant` message with tool calls `c1..cn` is immediately
followed by exactly `n` `Tool` messages with the ids of `c1..cn` in that order, and no `Tool`
message occurs anywhere else. -/
def transcriptOK (messages : List Message) : Bool :=
  expectAfterAll [] messages == some []

/-- A widget set for running examples: a rune typed is appended to the text input, and nothing
else changes a widget or makes it return a command. -/
def plainBubbles : Bubbles where
  textareaUpdate := fun ta msg =>
    match msg with
    | .KeyMsg .KeyRunes runes => ({ ta with value := ta.value ++ String.mk runes }, none)
    | _ => (ta, none)
  viewportUpdate := fun vp _ => (vp, none)
  spinnerUpdate := fun sp _ => (sp, some 1)

/-! ## Predicates of the specification -/

/-- The fields a tool requires, as its definition declares them: `file_path` for `Read`,
`file_path` and `content` for `Write`, `command` for `Bash`. -/
def requiredFields (name : String) : List String :=
  if name = "Read" then ["file_path"]
  else if name = "Write" then ["file_path", "content"]
  else if name = "Bash" then ["command"]
  else []

/-- Whether a text is a JSON object that lacks one of the given fields. -/
def missingField (fields : List String) (data : String) : Bool :=
  match parseJSON data with
  | some (.object members) => fields.any fun f => !(members.map Prod.fst).contains f
  | _ => false

/-- Whether a result text reports that the arguments could not be parsed. -/
def isParseFailure (result : String) : Bool :=
  "error parsing arguments: ".data.isPrefixOf result.data

/-- The transcript invariant, by positions: after an `Assistant` message at position `i` with
tool calls `c1..cn`, the positions `i+1..i+n` hold `Tool` messages with the ids of `c1..cn` in that
order and position `i+n+1` holds no `Tool` message; and every `Tool` message is one of those. -/
def TranscriptInvariant (messages : List Message) : Prop :=
  (∀ (i : Nat) (content : String) (toolCalls : List ToolCallParam),
    messages[i]? = some (Message.OfAssistant content toolCalls) →
      (∀ (j : Nat) (c : ToolCallParam), toolCalls[j]? = some c →
        ∃ result : String, messages[i + 1 + j]? = some (Message.OfTool result c.ID)) ∧
      (∀ result id : String,
        messages[i + 1 + toolCalls.length]? ≠ some (Message.OfTool result id))) ∧
  (∀ (k : Nat) (result id : String), messages[k]? = some (Message.OfTool result id) →
    ∃ (i : Nat) (content : String) (toolCalls : List ToolCallParam),
      messages[i]? = some (Message.OfAssistant content toolCalls) ∧ i < k ∧
        k ≤ i + toolCalls.length)

/-- The shape of a session between two events: nothing is outstanding, the model does not wait
and the transcript is complete; or the one command outstanding is the model call on the transcript
as it stands, which is complete; or it is the batch of the tool calls of the `Assistant` message
the transcript ends with, and the transcript before that message is complete. -/
def Session.shape (s : Session σ) : Prop :=
  (s.outstanding = [] ∧ s.model.waiting = false ∧ transcriptOK s.model.apiMessages = true) ∨
  (s.outstanding = [s.model.sendToAPI] ∧ s.model.waiting = true ∧
    transcriptOK s.model.apiMessages = true) ∨
  (∃ (toolCalls : List ToolCall) (content : String) (before : List Message),
    toolCalls ≠ [] ∧ s.outstanding = [Cmd.executeTools toolCalls] ∧ s.model.waiting = true ∧
    s.model.apiMessages =
      before ++ [Message.OfAssistant content (toolCalls.map ToolCall.ToParam)] ∧
    transcriptOK before = true)

/-- An event is a user submission the model accepts: Enter is pressed while the model does not
wait and the input text is not blank. -/
def Event.submits (m : Model) : Event → Prop
  | .input (.KeyMsg .KeyEnter _) => m.waiting = false ∧ strings.TrimSpace m.textarea.value ≠ ""
  | _ => False

/-- An event ends the turn in flight: a model call ends with an error message, or with a response
that has zero tool calls. -/
def Event.endsTurn : Event → Prop
  | .modelCallDone _ resp =>
    match sendToAPI.run resp with
    | .apiErrorMsg _ => True
    | .apiResponseMsg choice => choice.Message.ToolCalls = []
    | _ => False
  | _ => False

/-! ## Sessions for running examples -/

/-- A fresh model that waits for a response while its input field holds "hello". -/
def waitingModel : Model :=
  { NewModel "client" [] "model" with textarea := ⟨"hello", 40, 1⟩, waiting := true }

/-- A fresh model whose input field holds one blank. -/
def blankInputModel : Model :=
  { NewModel "client" [] "model" with textarea := ⟨" ", 40, 1⟩ }

/-- A fresh model whose input field holds " hi ". -/
def paddedInputModel : Model :=
  { NewModel "client" [] "model" with textarea := ⟨" hi ", 40, 1⟩ }

/-- The session in which the user has typed "hi" into a fresh model, on the machine without
files. -/
def typedSession : Session (List SysCall) :=
  (Session.mk (NewModel "client" [] "model") [] []).step emptyMachine plainBubbles
    (.input (.KeyMsg .KeyRunes ['h', 'i']))

/-- The session in which the user has typed "hi" and pressed Enter. -/
def submittedSession : Session (List SysCall) :=
  typedSession.step emptyMachine plainBubbles (.input (.KeyMsg .KeyEnter []))

/-- A tool call that lists the files of the working directory. -/
def lsCall : ToolCall := ⟨"call_1", ⟨"Bash", "\x7b\"command\": \"ls .\"\x7d"⟩⟩

/-- The session in which the model has answered the submission with the tool call `lsCall`. -/
def toolCallSession : Session (List SysCall) :=
  submittedSession.step emptyMachine plainBubbles
    (.modelCallDone submittedSession.model.sendToAPI (.ok [⟨⟨"", [lsCall]⟩⟩]))

/-- The session in which the tool call has been executed and its result sent to the model. -/
def toolResultSession : Session (List SysCall) :=
  toolCallSession.step emptyMachine plainBubbles (.toolsDone [lsCall])

/-- The session in which the model has answered the tool result with a final text. -/
def finalSession : Session (List SysCall) :=
  toolResultSession.step emptyMachine plainBubbles
    (.modelCallDone toolResultSession.model.sendToAPI (.ok [⟨⟨"done", []⟩⟩]))

/-! ## Facts about the JSON parser -/

theorem skipSpace_length (cs : List Char) : (skipSpace cs).length ≤ cs.length := by
  induction cs with
  | nil => simp [skipSpace]
  | cons c rest ih =>
    simp only [skipSpace]
    split_ifs
    · simp only [List.length_cons]; omega
    · exact Nat.le_refl _

theorem dropDigits_length (cs : List Char) : (dropDigits cs).length ≤ cs.length := by
  induction cs with
  | nil => simp [dropDigits]
  | cons c rest ih =>
    simp only [dropDigits]
    split_ifs
    · simp only [List.length_cons]; omega
    · exact Nat.le_refl _

theorem hex4_length (cs : List Char) (u : Nat) (r : List Char) (h : hex4 cs = some (u, r)) :
    r.length < cs.length := by
  unfold hex4 at h
  split at h
  · split at h
    · simp only [Option.some.injEq, Prod.mk.injEq] at h
      rw [← h.2]; simp only [List.length_cons]; omega
    · simp at h
  · simp at h

theorem escapedUnit_length (cs : List Char) (u : Nat) (r : List Char)
    (h : escapedUnit cs = some (u, r)) : r.length < cs.length := by
  unfold escapedUnit at h
  split at h
  · split_ifs at h
    have := hex4_length _ _ _ h
    simp only [List.length_cons]; omega
  · simp at h

theorem decodeEscapedRune_length (u : Nat) (rest : List Char) :
    (decodeEscapedRune u rest).2.length ≤ rest.length := by
  unfold decodeEscapedRune
  split_ifs
  · split
    · rename_i v rest1 hv
      have := escapedUnit_length _ _ _ hv
      split_ifs
      · simp only; omega
      · exact Nat.le_refl _
    · exact Nat.le_refl _
  · exact Nat.le_refl _

theorem readEscape_length (cs : List Char) (ch : Char) (r : List Char)
    (h : readEscape cs = some (ch, r)) : r.length < cs.length := by
  cases cs with
  | nil => simp [readEscape] at h
  | cons c rest =>
    simp only [readEscape] at h
    split_ifs at h
    all_goals first
      | (simp only [Option.some.injEq, Prod.mk.injEq] at h
         rw [← h.2]
         simp)
      | (split at h
         · rename_i u r1 hu
           simp only [Option.some.injEq] at h
           have h1 := hex4_length _ _ _ hu
           have h2 := decodeEscapedRune_length u r1
           rw [h] at h2
           simp only [List.length_cons]
           simp only at h2
           omega
         · simp at h)

theorem parseString_length (fuel : Nat) (cs acc : List Char) (s : String) (r : List Char)
    (h : parseString fuel cs acc = some (s, r)) : r.length < cs.length := by
  induction fuel generalizing cs acc with
  | zero => simp [parseString] at h
  | succ f ih =>
    cases cs with
    | nil => simp [parseString] at h
    | cons c rest =>
      simp only [parseString] at h
      split_ifs at h
      · simp only [Option.some.injEq, Prod.mk.injEq] at h
        rw [← h.2]; simp
      · split at h
        · rename_i ch r1 hesc
          have h1 := ih _ _ h
          have h2 := readEscape_length _ _ _ hesc
          simp only [List.length_cons]; omega
        · simp at h
      · have := ih _ _ h
        simp only [List.length_cons]; omega

theorem parseString_fuel (f1 f2 : Nat) (cs acc : List Char) (h1 : cs.length < f1)
    (h2 : cs.length < f2) : parseString f1 cs acc = parseString f2 cs acc := by
  induction f1 generalizing f2 cs acc with
  | zero => omega
  | succ f ih =>
    cases f2 with
    | zero => omega
    | succ g =>
      cases cs with
      | nil => simp [parseString]
      | cons c rest =>
        simp only [parseString]
        simp only [List.length_cons] at h1 h2
        split_ifs
        · rfl
        · split
          · rename_i ch r1 hesc
            have h3 := readEscape_length _ _ _ hesc
            exact ih _ _ _ (by omega) (by omega)
          · rfl
        · rfl
        · exact ih _ _ _ (by omega) (by omega)

theorem scanExponent_length (cs r : List Char) (h : scanExponent cs = some r) :
    r.length ≤ cs.length := by
  cases cs with
  | nil => simp [scanExponent] at h; simp [h]
  | cons e rest =>
    simp only [scanExponent] at h
    split_ifs at h
    · split at h
      · simp at h
      · rename_i d x
        split_ifs at h
        · split at h
          · simp at h
          · rename_i d1 x1
            split_ifs at h
            simp only [Option.some.injEq] at h
            have := dropDigits_length x1
            rw [← h]; simp only [List.length_cons]; omega
        · simp only [Option.some.injEq] at h
          have := dropDigits_length x
          rw [← h]; simp only [List.length_cons]; omega
    · simp only [Option.some.injEq] at h
      rw [← h]

theorem scanFraction_length (cs r : List Char) (h : scanFraction cs = some r) :
    r.length ≤ cs.length := by
  cases cs with
  | nil => simp [scanFraction] at h; simp [h]
  | cons p rest =>
    simp only [scanFraction] at h
    split_ifs at h
    · split at h
      · simp at h
      · rename_i d x
        split_ifs at h
        have h1 := scanExponent_length _ _ h
        have h2 := dropDigits_length x
        simp only [List.length_cons]; omega
    · exact scanExponent_length _ _ h

theorem scanInteger_length (cs r : List Char) (h : scanInteger cs = some r) :
    r.length < cs.length := by
  cases cs with
  | nil => simp [scanInteger] at h
  | cons c rest =>
    simp only [scanInteger] at h
    split_ifs at h
    · have := scanFraction_length _ _ h
      simp only [List.length_cons]; omega
    · have h1 := scanFraction_length _ _ h
      have h2 := dropDigits_length rest
      simp only [List.length_cons]; omega

theorem scanNumber_length (cs r : List Char) (h : scanNumber cs = some r) :
    r.length < cs.length := by
  cases cs with
  | nil => simp [scanNumber] at h
  | cons c rest =>
    simp only [scanNumber] at h
    split_ifs at h
    · have := scanInteger_length _ _ h
      simp only [List.length_cons]; omega
    · exact scanInteger_length _ _ h

theorem readLiteral_length (name cs r : List Char) (hn : 0 < name.length)
    (h : readLiteral name cs = some r) : r.length < cs.length := by
  unfold readLiteral at h
  split_ifs at h with hp
  simp only [Option.some.injEq] at h
  have hle := (List.isPrefixOf_iff_prefix.mp hp).length_le
  rw [← h, List.length_drop]
  omega

theorem parseScalar_length (cs : List Char) (v : JValue) (r : List Char)
    (h : parseScalar cs = some (v, r)) : r.length < cs.length := by
  cases cs with
  | nil => simp [parseScalar] at h
  | cons c rest =>
    simp only [parseScalar] at h
    split_ifs at h
    · split at h
      · rename_i s r1 hs
        simp only [Option.some.injEq, Prod.mk.injEq] at h
        have := parseString_length _ _ _ _ _ hs
        rw [← h.2]; simp only [List.length_cons]; omega
      · simp at h
    · simp only [Option.map_eq_some', Prod.mk.injEq] at h
      obtain ⟨r1, hr, -, rfl⟩ := h
      exact readLiteral_length _ _ _ (by decide) hr
    · simp only [Option.map_eq_some', Prod.mk.injEq] at h
      obtain ⟨r1, hr, -, rfl⟩ := h
      exact readLiteral_length _ _ _ (by decide) hr
    · simp only [Option.map_eq_some', Prod.mk.injEq] at h
      obtain ⟨r1, hr, -, rfl⟩ := h
      exact readLiteral_length _ _ _ (by decide) hr
    · split at h
      · rename_i r1 hn
        simp only [Option.some.injEq, Prod.mk.injEq] at h
        have := scanNumber_length _ _ hn
        rw [← h.2]; exact this
      · simp at h

theorem parse_length (fuel : Nat) :
    (∀ (d : Nat) (cs : List Char) (v : JValue) (r : List Char),
      parseValue fuel d cs = some (v, r) → r.length < cs.length) ∧
    (∀ (d : Nat) (cs : List Char) (acc : List (String × JValue)) (v : JValue) (r : List Char),
      parseMembers fuel d cs acc = some (v, r) → r.length < cs.length) ∧
    (∀ (d : Nat) (cs : List Char) (acc : List JValue) (v : JValue) (r : List Char),
      parseElements fuel d cs acc = some (v, r) → r.length < cs.length) := by
  induction fuel with
  | zero => simp [parseValue, parseMembers, parseElements]
  | succ f ih =>
    obtain ⟨ihv, ihm, ihe⟩ := ih
    refine ⟨?_, ?_, ?_⟩
    · intro d cs v r h
      cases cs with
      | nil => simp [parseValue] at h
      | cons c r0 =>
        simp only [parseValue] at h
        have hs := skipSpace_length r0
        split_ifs at h
        all_goals first
          | (simp only [Option.some.injEq, Prod.mk.injEq] at h
             rw [← h.2]
             simp only [List.length_tail, List.length_cons]
             omega)
          | (have hm := ihm _ _ _ _ _ h
             simp only [List.length_cons]
             omega)
          | (have he := ihe _ _ _ _ _ h
             simp only [List.length_cons]
             omega)
          | exact parseScalar_length _ _ _ h
    · intro d cs acc v r h
      cases cs with
      | nil => simp [parseMembers] at h
      | cons q r0 =>
        simp only [parseMembers] at h
        split_ifs at h
        split at h
        · simp at h
        · rename_i key r1 hkey
          have h1 := parseString_length _ _ _ _ _ hkey
          have h2 := skipSpace_length r1
          split at h
          · simp at h
          · rename_i colon r2 hcolon
            rw [hcolon] at h2
            split_ifs at h
            split at h
            · simp at h
            · rename_i v1 r3 hval
              have h3 := ihv _ _ _ _ hval
              have h4 := skipSpace_length r2
              have h5 := skipSpace_length r3
              split at h
              · simp at h
              · rename_i sep r4 hsep
                rw [hsep] at h5
                have h6 := skipSpace_length r4
                simp only [List.length_cons] at h2 h5 ⊢
                split_ifs at h
                · have := ihm _ _ _ _ _ h
                  omega
                · simp only [Option.some.injEq, Prod.mk.injEq] at h
                  rw [← h.2]
                  omega
    · intro d cs acc v r h
      simp only [parseElements] at h
      split at h
      · simp at h
      · rename_i v1 r1 hval
        have h1 := ihv _ _ _ _ hval
        have h2 := skipSpace_length r1
        split at h
        · simp at h
        · rename_i sep r2 hsep
          rw [hsep] at h2
          have h3 := skipSpace_length r2
          simp only [List.length_cons] at h2
          split_ifs at h
          · have := ihe _ _ _ _ _ h
            omega
          · simp only [Option.some.injEq, Prod.mk.injEq] at h
            rw [← h.2]
            omega

/-- More fuel than twice the length of the input changes nothing: the parser never runs out of
it. -/
theorem parse_fuel (f1 : Nat) :
    ∀ (f2 d : Nat) (cs : List Char),
      (2 * cs.length + 1 ≤ f1 → 2 * cs.length + 1 ≤ f2 →
        parseValue f1 d cs = parseValue f2 d cs) ∧
      (2 * cs.length + 2 ≤ f1 → 2 * cs.length + 2 ≤ f2 →
        ∀ acc, parseMembers f1 d cs acc = parseMembers f2 d cs acc) ∧
      (2 * cs.length + 2 ≤ f1 → 2 * cs.length + 2 ≤ f2 →
        ∀ acc, parseElements f1 d cs acc = parseElements f2 d cs acc) := by
  induction f1 with
  | zero => intro f2 d cs; refine ⟨?_, ?_, ?_⟩ <;> intro h <;> omega
  | succ f ih =>
    intro f2 d cs
    cases f2 with
    | zero => refine ⟨?_, ?_, ?_⟩ <;> intro _ h <;> omega
    | succ g =>
      refine ⟨?_, ?_, ?_⟩
      · intro h1 h2
        cases cs with
        | nil => simp [parseValue]
        | cons c r0 =>
          simp only [parseValue]
          have hs := skipSpace_length r0
          simp only [List.length_cons] at h1 h2
          split_ifs
          all_goals first
            | rfl
            | exact (ih g _ _).2.1 (by omega) (by omega) _
            | exact (ih g _ _).2.2 (by omega) (by omega) _
      · intro h1 h2 acc
        cases cs with
        | nil => simp [parseMembers]
        | cons q r0 =>
          simp only [parseMembers]
          simp only [List.length_cons] at h1 h2
          split_ifs
          · split
            · rfl
            · rename_i key r1 hkey
              have h3 := parseString_length _ _ _ _ _ hkey
              have h4 := skipSpace_length r1
              split
              · rfl
              · rename_i colon r2 hcolon
                rw [hcolon] at h4
                have h5 := skipSpace_length r2
                simp only [List.length_cons] at h4
                split_ifs
                · rw [(ih g d (skipSpace r2)).1 (by omega) (by omega)]
                  split
                  · rfl
                  · rename_i v1 r3 hval
                    have h6 := (parse_length g).1 _ _ _ _ hval
                    have h7 := skipSpace_length r3
                    split
                    · rfl
                    · rename_i sep r4 hsep
                      rw [hsep] at h7
                      have h8 := skipSpace_length r4
                      simp only [List.length_cons] at h7
                      split_ifs
                      · exact (ih g _ _).2.1 (by omega) (by omega) _
                      · rfl
                      · rfl
                · rfl
          · rfl
      · intro h1 h2 acc
        simp only [parseElements]
        rw [(ih g d cs).1 (by omega) (by omega)]
        split
        · rfl
        · rename_i v1 r1 hval
          have h3 := (parse_length g).1 _ _ _ _ hval
          have h4 := skipSpace_length r1
          split
          · rfl
          · rename_i sep r2 hsep
            rw [hsep] at h4
            have h5 := skipSpace_length r2
            simp only [List.length_cons] at h4
            split_ifs
            · exact (ih g _ _).2.2 (by omega) (by omega) _
            · rfl
            · rfl

/-- The value `parseJSON` finds is the value the parser finds with any larger amount of fuel. -/
theorem parseValue_fuel (fuel : Nat) (cs : List Char) (h : 2 * cs.length + 1 ≤ fuel) :
    parseValue fuel 0 cs = parseValue (2 * cs.length + 1) 0 cs :=
  (parse_fuel fuel (2 * cs.length + 1) 0 cs).1 h (Nat.le_refl _)

/-! ## Facts about the tool executor -/

theorem Unmarshal_of_invalid (fields : List String) (data : String)
    (h : validJSON data = false) : Unmarshal fields data = .error .SyntaxError := by
  unfold validJSON at h
  unfold Unmarshal
  cases hp : parseJSON data with
  | none => rfl
  | some v => simp [hp] at h

theorem isParseFailure_append (e : String) :
    isParseFailure ("error parsing arguments: " ++ e) = true := by
  unfold isParseFailure
  rw [String.data_append]
  exact List.isPrefixOf_iff_prefix.mpr (List.prefix_append _ _)

/-- C10: for a tool name other than "Read", "Write" and "Bash", `Execute` returns the text
"unknown tool: " followed by the name, which contains "unknown tool", and the world is left as it
was: no file or shell action is taken. -/
theorem Execute_unknown_tool (rt : Runtime σ) (name arguments : String) (w : σ)
    (hRead : name ≠ "Read") (hWrite : name ≠ "Write") (hBash : name ≠ "Bash") :
    Execute rt name arguments w = ("unknown tool: " ++ name, w) ∧
    "unknown tool".data <:+: (Execute rt name arguments w).1.data := by
  have h : Execute rt name arguments w = ("unknown tool: " ++ name, w) := by
    simp [Execute, hRead, hWrite, hBash]
  refine ⟨h, ?_⟩
  rw [h]
  exact ⟨[], (": " ++ name).data, by simp [String.data_append]⟩

theorem Execute_unknown_tool_witness :
    ("Grep" ≠ "Read" ∧ "Grep" ≠ "Write" ∧ "Grep" ≠ "Bash") ∧
    (Execute emptyMachine "Grep" "[1" [] = ("unknown tool: " ++ "Grep", []) ∧
      "unknown tool".data <:+: (Execute emptyMachine "Grep" "[1" []).1.data) :=
  ⟨by decide, Execute_unknown_tool emptyMachine "Grep" "[1" [] (by decide) (by decide)
    (by decide)⟩

/-- C9, as the code has it: for each of the tools Read, Write and Bash and every arguments string
that is not valid JSON, `Execute` returns the text "error parsing arguments: " followed by the
text of the error, and the world is left as it was: the tool is not run. -/
theorem Execute_malformed_arguments (rt : Runtime σ) (name arguments : String) (w : σ)
    (hname : name = "Read" ∨ name = "Write" ∨ name = "Bash")
    (hbad : validJSON arguments = false) :
    Execute rt name arguments w =
      ("error parsing arguments: " ++ rt.jsonErrorText .SyntaxError, w) ∧
    isParseFailure (Execute rt name arguments w).1 = true := by
  have h : Execute rt name arguments w =
      ("error parsing arguments: " ++ rt.jsonErrorText .SyntaxError, w) := by
    rcases hname with rfl | rfl | rfl
    · simp [Execute, executeRead, Unmarshal_of_invalid _ _ hbad]
    · simp [Execute, executeWrite, Unmarshal_of_invalid _ _ hbad]
    · simp [Execute, executeBash, Unmarshal_of_invalid _ _ hbad]
  exact ⟨h, by rw [h]; exact isParseFailure_append _⟩

theorem Execute_malformed_arguments_witness :
    ("Write" = "Read" ∨ "Write" = "Write" ∨ "Write" = "Bash") ∧
    validJSON "\x7b\"file_path\": \"a.txt\", \"content\": " = false ∧
    (Execute emptyMachine "Write" "\x7b\"file_path\": \"a.txt\", \"content\": " [] =
      ("error parsing arguments: " ++ emptyMachine.jsonErrorText .SyntaxError, []) ∧
    isParseFailure
      (Execute emptyMachine "Write" "\x7b\"file_path\": \"a.txt\", \"content\": " []).1 = true) :=
  ⟨by decide, by decide,
    Execute_malformed_arguments emptyMachine "Write" "\x7b\"file_path\": \"a.txt\", \"content\": " []
      (by decide) (by decide)⟩

/-- C9 fails as stated: the arguments `\x7b\x7d` are a JSON object without the field `file_path`
that Read requires, and `Execute` does not report a parse failure: `json.Unmarshal` accepts the
object and leaves the field empty, and the tool runs, on every runtime, with the empty path. On a
machine without files the result is the error of `os.ReadFile`. -/
theorem Execute_missing_field_runs_tool :
    validJSON "\x7b\x7d" = true ∧
    missingField (requiredFields "Read") "\x7b\x7d" = true ∧
    Execute emptyMachine "Read" "\x7b\x7d" [] =
      ("error reading file: open : no such file or directory", [SysCall.ReadFile ""]) ∧
    isParseFailure (Execute emptyMachine "Read" "\x7b\x7d" []).1 = false ∧
    (∀ (τ : Type) (rt : Runtime τ) (w : τ),
      (Execute rt "Read" "\x7b\x7d" w).2 = (rt.ReadFile "" w).2) := by
  refine ⟨by decide, by decide, by decide, by decide, ?_⟩
  intro τ rt w
  have hu : Unmarshal ["file_path"] "\x7b\x7d" = .ok (fun f => (([] : List (String × String)).lookup f).getD "") := by
    rfl
  simp only [Execute, executeRead, hu]
  cases h : rt.ReadFile "" w with
  | mk r w1 => cases r <;> simp_all

/-! ## Facts about the tool batch -/

theorem executeTools.loop_results (rt : Runtime σ) (toolCalls : List ToolCall)
    (results : List Message) (w : σ) :
    executeTools.loop rt toolCalls results w =
      (results ++ (executeTools.loop rt toolCalls [] w).1,
        (executeTools.loop rt toolCalls [] w).2) := by
  induction toolCalls generalizing results w with
  | nil => simp [executeTools.loop]
  | cons c rest ih =>
    simp only [executeTools.loop]
    rw [ih (results ++ _), ih ([] ++ _)]
    simp

theorem executeTools.loop_cons (rt : Runtime σ) (c : ToolCall) (rest : List ToolCall) (w : σ) :
    executeTools.loop rt (c :: rest) [] w =
      (ToolMessage (Execute rt c.Function.Name c.Function.Arguments w).1 c.ID ::
          (executeTools.loop rt rest []
            (Execute rt c.Function.Name c.Function.Arguments w).2).1,
        (executeTools.loop rt rest []
            (Execute rt c.Function.Name c.Function.Arguments w).2).2) := by
  simp only [executeTools.loop]
  rw [executeTools.loop_results]
  simp

theorem executeTools.loop_length (rt : Runtime σ) (toolCalls : List ToolCall) (w : σ) :
    (executeTools.loop rt toolCalls [] w).1.length = toolCalls.length := by
  induction toolCalls generalizing w with
  | nil => simp [executeTools.loop]
  | cons c rest ih => rw [executeTools.loop_cons]; simp [ih]

theorem executeTools.loop_getElem (rt : Runtime σ) (toolCalls : List ToolCall) (w : σ) (i : Nat) :
    (executeTools.loop rt toolCalls [] w).1[i]? =
      (toolCalls[i]?).map fun c =>
        ToolMessage (Execute rt c.Function.Name c.Function.Arguments
          (executeTools.loop rt (toolCalls.take i) [] w).2).1 c.ID := by
  induction toolCalls generalizing w i with
  | nil => simp [executeTools.loop]
  | cons c rest ih =>
    rw [executeTools.loop_cons]
    cases i with
    | zero => simp [executeTools.loop]
    | succ j =>
      simp only [List.getElem?_cons_succ, List.take_succ_cons]
      rw [ih, executeTools.loop_cons]

theorem executeTools.loop_ids (rt : Runtime σ) (toolCalls : List ToolCall) (w : σ) :
    ∃ contents : List String, contents.length = toolCalls.length ∧
      (executeTools.loop rt toolCalls [] w).1 =
        List.zipWith (fun content (c : ToolCall) => Message.OfTool content c.ID)
          contents toolCalls := by
  induction toolCalls generalizing w with
  | nil => exact ⟨[], rfl, by simp [executeTools.loop]⟩
  | cons c rest ih =>
    obtain ⟨contents, hlen, heq⟩ := ih (Execute rt c.Function.Name c.Function.Arguments w).2
    refine ⟨(Execute rt c.Function.Name c.Function.Arguments w).1 :: contents, by simp [hlen], ?_⟩
    rw [executeTools.loop_cons, heq]
    simp [ToolMessage]

theorem executeTools.loop_world (rt : Runtime σ) (toolCalls : List ToolCall) (w : σ) :
    (executeTools.loop rt toolCalls [] w).2 =
      toolCalls.foldl
        (fun w1 c => (Execute rt c.Function.Name c.Function.Arguments w1).2) w := by
  induction toolCalls generalizing w with
  | nil => rfl
  | cons c rest ih => rw [executeTools.loop_cons, List.foldl_cons]; exact ih _

/-- C1: for every list of tool calls, the `toolResultsMsg` of `executeTools` holds a result list of
the same length whose i-th entry is the `Tool` message whose `toolCallID` is the id of the i-th
call and whose content is the text `Execute` returns for the name and arguments of that call, run
in the world the calls before it have left; and `handleToolResults`, also when reached through
`Update`, appends exactly that list, in that order, to the end of `apiMessages`. -/
theorem executeTools_results_in_order (rt : Runtime σ) (B : Bubbles) (toolCalls : List ToolCall)
    (w : σ) (m : Model) :
    ∃ results : List Message,
      (executeTools.run rt toolCalls w).1 = Msg.toolResultsMsg results ∧
      (executeTools.run rt toolCalls w).2 =
        toolCalls.foldl
          (fun w1 c => (Execute rt c.Function.Name c.Function.Arguments w1).2) w ∧
      results.length = toolCalls.length ∧
      (∀ i : Nat, results[i]? = (toolCalls[i]?).map fun c =>
        Message.OfTool
          (Execute rt c.Function.Name c.Function.Arguments
            ((toolCalls.take i).foldl
              (fun w1 c1 => (Execute rt c1.Function.Name c1.Function.Arguments w1).2) w)).1
          c.ID) ∧
      (m.handleToolResults results).1.apiMessages = m.apiMessages ++ results ∧
      (m.Update B (Msg.toolResultsMsg results)).1.apiMessages = m.apiMessages ++ results := by
  refine ⟨(executeTools.loop rt toolCalls [] w).1, rfl, executeTools.loop_world rt toolCalls w,
    executeTools.loop_length rt toolCalls w, fun i => ?_, rfl, rfl⟩
  rw [executeTools.loop_getElem, executeTools.loop_world]
  rfl

/-! ## Facts about the handlers of `Update` -/

theorem Model.updateWidgets_apiMessages (B : Bubbles) (m : Model) (msg : Msg) (cmds : List Cmd) :
    (m.updateWidgets B msg cmds).1.apiMessages = m.apiMessages := rfl

theorem Model.updateWidgets_messages (B : Bubbles) (m : Model) (msg : Msg) (cmds : List Cmd) :
    (m.updateWidgets B msg cmds).1.messages = m.messages := rfl

theorem Model.updateWidgets_waiting (B : Bubbles) (m : Model) (msg : Msg) (cmds : List Cmd) :
    (m.updateWidgets B msg cmds).1.waiting = m.waiting := rfl

theorem Model.updateWidgets_calls (B : Bubbles) (m : Model) (msg : Msg) (cmds : List Cmd) :
    (m.updateWidgets B msg cmds).2.filter Cmd.isCall = cmds.filter Cmd.isCall := by
  simp only [Model.updateWidgets, List.filter_append]
  cases (B.textareaUpdate m.textarea msg).2 <;>
    cases (B.viewportUpdate m.viewport msg).2 <;> simp [Cmd.isCall]

theorem Model.handleKeyPress_waiting (m : Model) (hw : m.waiting = true) :
    m.handleKeyPress .KeyEnter = (m, none) := by
  simp [Model.handleKeyPress, hw]

theorem Model.handleKeyPress_blank (m : Model) (hw : m.waiting = false)
    (ht : strings.TrimSpace m.textarea.value = "") :
    m.handleKeyPress .KeyEnter = (m, none) := by
  simp [Model.handleKeyPress, hw, ht]

theorem Model.handleKeyPress_submit (m : Model) (hw : m.waiting = false)
    (ht : strings.TrimSpace m.textarea.value ≠ "") :
    ∃ m1 : Model, m.handleKeyPress .KeyEnter =
        (m1, some [Cmd.sendToAPI (m.apiMessages ++ [UserMessage (strings.TrimSpace m.textarea.value)])
          m.tools m.client m.model, Cmd.Tick]) ∧
      m1.apiMessages = m.apiMessages ++ [UserMessage (strings.TrimSpace m.textarea.value)] ∧
      m1.messages = m.messages ++
        [Rendered.mk .userStyle (some m.viewport.Width)
          ("▶ " ++ strings.TrimSpace m.textarea.value)] ∧
      m1.waiting = true ∧ m1.textarea.value = "" := by
  refine ⟨(m.handleKeyPress .KeyEnter).1, ?_, ?_, ?_, ?_, ?_⟩ <;>
    simp [Model.handleKeyPress, hw, ht, Model.refreshViewport, Model.sendToAPI]

/-- C3: in a model with `waiting` true, whatever the input field holds, pressing Enter is a no-op
on the session: `handleKeyPress` leaves the model as it is, in particular `apiMessages`, the
display messages and `waiting`, and returns no command; `Update` then returns no model call and no
tool batch. -/
theorem handleKeyPress_enter_while_waiting (B : Bubbles) (m : Model) (runes : List Char)
    (hw : m.waiting = true) :
    m.handleKeyPress .KeyEnter = (m, none) ∧
    (m.Update B (.KeyMsg .KeyEnter runes)).1.apiMessages = m.apiMessages ∧
    (m.Update B (.KeyMsg .KeyEnter runes)).1.messages = m.messages ∧
    (m.Update B (.KeyMsg .KeyEnter runes)).1.waiting = true ∧
    (m.Update B (.KeyMsg .KeyEnter runes)).2.filter Cmd.isCall = [] := by
  have h := Model.handleKeyPress_waiting m hw
  refine ⟨h, ?_, ?_, ?_, ?_⟩
  · simp only [Model.Update, h]; rfl
  · simp only [Model.Update, h]; rfl
  · simp only [Model.Update, h]; exact hw
  · simp only [Model.Update, h]; rw [Model.updateWidgets_calls]; rfl

theorem handleKeyPress_enter_while_waiting_witness :
    waitingModel.waiting = true ∧
    (waitingModel.handleKeyPress .KeyEnter = (waitingModel, none) ∧
      (waitingModel.Update plainBubbles (.KeyMsg .KeyEnter [])).1.apiMessages =
        waitingModel.apiMessages ∧
      (waitingModel.Update plainBubbles (.KeyMsg .KeyEnter [])).1.messages =
        waitingModel.messages ∧
      (waitingModel.Update plainBubbles (.KeyMsg .KeyEnter [])).1.waiting = true ∧
      (waitingModel.Update plainBubbles (.KeyMsg .KeyEnter [])).2.filter Cmd.isCall = []) :=
  ⟨rfl, handleKeyPress_enter_while_waiting plainBubbles waitingModel [] rfl⟩

/-- C5 fails as stated: with `waiting` false and the non-empty input text of one blank, pressing
Enter appends nothing, leaves `waiting` false and returns no command; and with the input
" hi " the `User` message appended carries "hi", not the text submitted. -/
theorem handleKeyPress_enter_blank_input :
    blankInputModel.waiting = false ∧
    blankInputModel.textarea.value ≠ "" ∧
    blankInputModel.handleKeyPress .KeyEnter = (blankInputModel, none) ∧
    (blankInputModel.Update plainBubbles (.KeyMsg .KeyEnter [])).1.apiMessages =
      blankInputModel.apiMessages ∧
    (blankInputModel.Update plainBubbles (.KeyMsg .KeyEnter [])).1.waiting = false ∧
    (blankInputModel.Update plainBubbles (.KeyMsg .KeyEnter [])).2 = [] ∧
    (paddedInputModel.handleKeyPress .KeyEnter).1.apiMessages =
      paddedInputModel.apiMessages ++ [UserMessage "hi"] ∧
    UserMessage "hi" ≠ UserMessage paddedInputModel.textarea.value := by
  have hb : blankInputModel.handleKeyPress .KeyEnter = (blankInputModel, none) :=
    Model.handleKeyPress_blank _ rfl (by decide)
  refine ⟨rfl, by decide, hb, ?_, ?_, ?_, ?_, by decide⟩
  · simp only [Model.Update, hb]; rfl
  · simp only [Model.Update, hb]; rfl
  · simp only [Model.Update, hb]; rfl
  · have ht : strings.TrimSpace paddedInputModel.textarea.value = "hi" := by decide
    obtain ⟨m1, h1, h2, -⟩ := Model.handleKeyPress_submit paddedInputModel rfl
      (by rw [ht]; decide)
    rw [h1]
    simp only [h2, ht]

/-- C5, as the code has it: in a model with `waiting` false whose input text is not empty once its
leading and trailing white space is trimmed, pressing Enter appends exactly one `User` message,
carrying the trimmed text, to `apiMessages`, sets `waiting` to true, and returns a model call
whose message list is the transcript as it stands after that append. -/
theorem handleKeyPress_enter_submits (B : Bubbles) (m : Model) (runes : List Char)
    (hw : m.waiting = false) (ht : strings.TrimSpace m.textarea.value ≠ "") :
    (m.handleKeyPress .KeyEnter).1.apiMessages =
      m.apiMessages ++ [UserMessage (strings.TrimSpace m.textarea.value)] ∧
    (m.handleKeyPress .KeyEnter).1.waiting = true ∧
    (m.handleKeyPress .KeyEnter).2 =
      some [Cmd.sendToAPI (m.handleKeyPress .KeyEnter).1.apiMessages m.tools m.client m.model,
        Cmd.Tick] ∧
    m.Update B (.KeyMsg .KeyEnter runes) =
      ((m.handleKeyPress .KeyEnter).1,
        [Cmd.sendToAPI (m.handleKeyPress .KeyEnter).1.apiMessages m.tools m.client m.model,
          Cmd.Tick]) := by
  obtain ⟨m1, h1, h2, -, h4, -⟩ := Model.handleKeyPress_submit m hw ht
  simp only [Model.Update, h1, h2, h4, and_self]

theorem handleKeyPress_enter_submits_witness :
    paddedInputModel.waiting = false ∧
    strings.TrimSpace paddedInputModel.textarea.value ≠ "" ∧
    ((paddedInputModel.handleKeyPress .KeyEnter).1.apiMessages =
        paddedInputModel.apiMessages ++
          [UserMessage (strings.TrimSpace paddedInputModel.textarea.value)] ∧
      (paddedInputModel.handleKeyPress .KeyEnter).1.waiting = true ∧
      (paddedInputModel.handleKeyPress .KeyEnter).2 =
        some [Cmd.sendToAPI (paddedInputModel.handleKeyPress .KeyEnter).1.apiMessages
          paddedInputModel.tools paddedInputModel.client paddedInputModel.model, Cmd.Tick] ∧
      paddedInputModel.Update plainBubbles (.KeyMsg .KeyEnter []) =
        ((paddedInputModel.handleKeyPress .KeyEnter).1,
          [Cmd.sendToAPI (paddedInputModel.handleKeyPress .KeyEnter).1.apiMessages
            paddedInputModel.tools paddedInputModel.client paddedInputModel.model, Cmd.Tick])) :=
  ⟨rfl, by decide, handleKeyPress_enter_submits plainBubbles paddedInputModel [] rfl (by decide)⟩

theorem Model.handleAPIResponse_final (m : Model) (choice : ChatCompletionChoice)
    (h : choice.Message.ToolCalls = []) :
    ∃ m1 : Model, m.handleAPIResponse choice = (m1, none) ∧
      m1.apiMessages = m.apiMessages ++ [Message.OfAssistant choice.Message.Content []] ∧
      m1.messages = m.messages ++
        [Rendered.mk .assistantStyle (some m.viewport.Width) choice.Message.Content] ∧
      m1.waiting = false := by
  refine ⟨(m.handleAPIResponse choice).1, ?_, ?_, ?_, ?_⟩ <;>
    simp [Model.handleAPIResponse, h, Model.refreshViewport]

theorem Model.handleAPIResponse_tools (m : Model) (choice : ChatCompletionChoice)
    (h : choice.Message.ToolCalls ≠ []) :
    ∃ m1 : Model, m.handleAPIResponse choice =
        (m1, some [Cmd.executeTools choice.Message.ToolCalls]) ∧
      m1.apiMessages = m.apiMessages ++
        [Message.OfAssistant choice.Message.Content
          (choice.Message.ToolCalls.map ToolCall.ToParam)] ∧
      m1.waiting = m.waiting := by
  have hl : choice.Message.ToolCalls.length > 0 := List.length_pos.mpr h
  refine ⟨(m.handleAPIResponse choice).1, ?_, ?_, ?_⟩ <;>
    simp [Model.handleAPIResponse, hl, Model.refreshViewport, executeTools]

/-- C6: for every model response with zero tool calls and any text, the empty string included,
`handleAPIResponse` appends exactly one `Assistant` message with that text and an empty tool-call
list to `apiMessages`, appends exactly one entry, in the assistant style and not in the error
style, to the display messages, sets `waiting` to false and returns no command; `Update` then
returns no model call and no tool batch. -/
theorem handleAPIResponse_no_tool_calls (B : Bubbles) (m : Model) (choice : ChatCompletionChoice)
    (h : choice.Message.ToolCalls = []) :
    (m.handleAPIResponse choice).1.apiMessages =
      m.apiMessages ++ [Message.OfAssistant choice.Message.Content []] ∧
    (∃ entry : Rendered, (m.handleAPIResponse choice).1.messages = m.messages ++ [entry] ∧
      entry.style = Style.assistantStyle ∧ entry.style ≠ Style.errorStyle ∧
      entry.text = choice.Message.Content) ∧
    (m.handleAPIResponse choice).1.waiting = false ∧
    (m.handleAPIResponse choice).2 = none ∧
    (m.Update B (.apiResponseMsg choice)).1.apiMessages =
      m.apiMessages ++ [Message.OfAssistant choice.Message.Content []] ∧
    (m.Update B (.apiResponseMsg choice)).1.messages =
      (m.handleAPIResponse choice).1.messages ∧
    (m.Update B (.apiResponseMsg choice)).1.waiting = false ∧
    (m.Update B (.apiResponseMsg choice)).2.filter Cmd.isCall = [] := by
  obtain ⟨m1, h1, h2, h3, h4⟩ := Model.handleAPIResponse_final m choice h
  refine ⟨by rw [h1]; exact h2, ⟨_, by rw [h1]; exact h3, rfl, by simp, rfl⟩,
    by rw [h1]; exact h4, by rw [h1], ?_, ?_, ?_, ?_⟩
  · simp only [Model.Update, h1]; exact h2
  · simp only [Model.Update, h1]; rfl
  · simp only [Model.Update, h1]; exact h4
  · simp only [Model.Update, h1]; rw [Model.updateWidgets_calls]; rfl

theorem handleAPIResponse_no_tool_calls_witness :
    (ChatCompletionChoice.mk ⟨"", []⟩).Message.ToolCalls = [] ∧
    (waitingModel.handleAPIResponse ⟨⟨"", []⟩⟩).1.apiMessages =
      waitingModel.apiMessages ++ [Message.OfAssistant "" []] ∧
    (waitingModel.handleAPIResponse ⟨⟨"", []⟩⟩).1.waiting = false ∧
    (waitingModel.handleAPIResponse ⟨⟨"", []⟩⟩).2 = none ∧
    (waitingModel.Update plainBubbles (.apiResponseMsg ⟨⟨"", []⟩⟩)).2.filter Cmd.isCall = [] :=
  have h := handleAPIResponse_no_tool_calls plainBubbles waitingModel ⟨⟨"", []⟩⟩ rfl
  ⟨rfl, h.1, h.2.2.1, h.2.2.2.1, h.2.2.2.2.2.2.2⟩

/-- C7: for every model state and every `apiErrorMsg`, be it a transport error or the "no choices
in response" error that the command of `sendToAPI` raises for an empty choice list, handling it
leaves `apiMessages` unchanged, appends exactly one entry, in the error style and ending with the
error text, to the display messages, sets `waiting` to false, and `Update` returns no model call
and no tool batch. -/
theorem handleAPIError_display_only (B : Bubbles) (m : Model) (err : String) :
    (m.handleAPIError err).apiMessages = m.apiMessages ∧
    (∃ entry : Rendered, (m.handleAPIError err).messages = m.messages ++ [entry] ∧
      entry.style = Style.errorStyle ∧ entry.text = "✖ " ++ err ∧
      err.data <:+ entry.text.data) ∧
    (m.handleAPIError err).waiting = false ∧
    (m.Update B (.apiErrorMsg err)).1.apiMessages = m.apiMessages ∧
    (m.Update B (.apiErrorMsg err)).1.messages = (m.handleAPIError err).messages ∧
    (m.Update B (.apiErrorMsg err)).1.waiting = false ∧
    (m.Update B (.apiErrorMsg err)).2.filter Cmd.isCall = [] ∧
    sendToAPI.run (.ok []) = .apiErrorMsg "no choices in response" ∧
    (∀ e : String, sendToAPI.run (.error e) = .apiErrorMsg e) := by
  refine ⟨rfl, ⟨_, rfl, rfl, rfl, ?_⟩, rfl, rfl, rfl, rfl, ?_, rfl, fun _ => rfl⟩
  · rw [String.data_append]; exact List.suffix_append _ _
  · simp only [Model.Update]; rw [Model.updateWidgets_calls]; rfl

/-- C8: the model-facing transcript is append-only: for every model state and every message, the
`apiMessages` of the state is a prefix of the `apiMessages` of the state `Update` returns. -/
theorem Update_apiMessages_append_only (B : Bubbles) (m : Model) (msg : Msg) :
    m.apiMessages <+: (m.Update B msg).1.apiMessages := by
  cases msg with
  | WindowSizeMsg Width Height => exact List.prefix_refl _
  | KeyMsg type runes =>
    cases type with
    | KeyCtrlC => exact List.prefix_refl _
    | KeyEnter =>
      by_cases hw : m.waiting = true
      · simp only [Model.Update, Model.handleKeyPress_waiting m hw]
        exact List.prefix_refl _
      · have hw1 : m.waiting = false := by simpa using hw
        by_cases ht : strings.TrimSpace m.textarea.value = ""
        · simp only [Model.Update, Model.handleKeyPress_blank m hw1 ht]
          exact List.prefix_refl _
        · obtain ⟨m1, h1, h2, -⟩ := Model.handleKeyPress_submit m hw1 ht
          simp only [Model.Update, h1, h2]
          exact List.prefix_append _ _
    | KeyRunes => exact List.prefix_refl _
    | KeyOther code => exact List.prefix_refl _
  | apiResponseMsg choice =>
    by_cases h : choice.Message.ToolCalls = []
    · obtain ⟨m1, h1, h2, -⟩ := Model.handleAPIResponse_final m choice h
      simp only [Model.Update, h1, Model.updateWidgets_apiMessages, h2]
      exact List.prefix_append _ _
    · obtain ⟨m1, h1, h2, -⟩ := Model.handleAPIResponse_tools m choice h
      simp only [Model.Update, h1, h2]
      exact List.prefix_append _ _
  | apiErrorMsg err => exact List.prefix_refl _
  | toolResultsMsg results => exact List.prefix_append _ _
  | TickMsg tag =>
    by_cases hw : m.waiting = true
    · simp only [Model.Update, Model.handleSpinnerTick, hw, if_true]
      cases (B.spinnerUpdate m.spinner (Msg.TickMsg tag)).2 <;> exact List.prefix_refl _
    · simp only [Model.Update, Model.handleSpinnerTick, hw]
      exact List.prefix_refl _
  | other tag => exact List.prefix_refl _

/-! ## The event loop -/

theorem expectAfterAll_append (due : List String) (xs ys : List Message) :
    expectAfterAll due (xs ++ ys) =
      (expectAfterAll due xs).bind fun due1 => expectAfterAll due1 ys := by
  induction xs generalizing due with
  | nil => rfl
  | cons x rest ih =>
    simp only [List.cons_append, expectAfterAll]
    cases expectAfter due x with
    | none => rfl
    | some due1 => exact ih due1

theorem transcriptOK_iff (messages : List Message) :
    transcriptOK messages = true ↔ expectAfterAll [] messages = some [] := by
  simp [transcriptOK]

theorem transcriptOK_append_user (messages : List Message) (content : String)
    (h : transcriptOK messages = true) :
    transcriptOK (messages ++ [UserMessage content]) = true := by
  rw [transcriptOK_iff] at h ⊢
  rw [expectAfterAll_append, h]
  rfl

theorem transcriptOK_append_final (messages : List Message) (content : String)
    (h : transcriptOK messages = true) :
    transcriptOK (messages ++ [Message.OfAssistant content []]) = true := by
  rw [transcriptOK_iff] at h ⊢
  rw [expectAfterAll_append, h]
  rfl

theorem expectAfterAll_results (toolCalls : List ToolCall) (contents : List String)
    (hlen : contents.length = toolCalls.length) :
    expectAfterAll (toolCalls.map fun c => c.ID)
      (List.zipWith (fun content (c : ToolCall) => Message.OfTool content c.ID)
        contents toolCalls) = some [] := by
  induction toolCalls generalizing contents with
  | nil => cases contents <;> simp_all [expectAfterAll]
  | cons c rest ih =>
    cases contents with
    | nil => simp at hlen
    | cons x xs =>
      simp only [List.map_cons, List.zipWith_cons_cons, expectAfterAll, expectAfter, if_true]
      exact ih xs (by simpa using hlen)

theorem transcriptOK_append_results (rt : Runtime σ) (before : List Message) (content : String)
    (toolCalls : List ToolCall) (w : σ) (h : transcriptOK before = true) :
    transcriptOK (before ++ [Message.OfAssistant content (toolCalls.map ToolCall.ToParam)] ++
      (executeTools.loop rt toolCalls [] w).1) = true := by
  obtain ⟨contents, hlen, heq⟩ := executeTools.loop_ids rt toolCalls w
  rw [transcriptOK_iff] at h ⊢
  rw [expectAfterAll_append, expectAfterAll_append, h, heq]
  have hids : (toolCalls.map ToolCall.ToParam).map (fun tc => tc.ID) =
      toolCalls.map fun c => c.ID := by
    simp [ToolCall.ToParam, Function.comp_def]
  simp only [Option.some_bind, expectAfterAll, expectAfter, hids]
  exact expectAfterAll_results toolCalls contents hlen

theorem Model.Update_config (B : Bubbles) (m : Model) (msg : Msg) :
    (m.Update B msg).1.tools = m.tools ∧ (m.Update B msg).1.client = m.client ∧
    (m.Update B msg).1.model = m.model := by
  cases msg with
  | WindowSizeMsg Width Height => exact ⟨rfl, rfl, rfl⟩
  | KeyMsg type runes =>
    cases type with
    | KeyCtrlC => exact ⟨rfl, rfl, rfl⟩
    | KeyEnter =>
      simp only [Model.Update, Model.handleKeyPress]
      split_ifs <;> exact ⟨rfl, rfl, rfl⟩
    | KeyRunes => exact ⟨rfl, rfl, rfl⟩
    | KeyOther code => exact ⟨rfl, rfl, rfl⟩
  | apiResponseMsg choice =>
    simp only [Model.Update, Model.handleAPIResponse]
    split_ifs <;> exact ⟨rfl, rfl, rfl⟩
  | apiErrorMsg err => exact ⟨rfl, rfl, rfl⟩
  | toolResultsMsg results => exact ⟨rfl, rfl, rfl⟩
  | TickMsg tag =>
    simp only [Model.Update, Model.handleSpinnerTick]
    split_ifs
    · cases (B.spinnerUpdate m.spinner (Msg.TickMsg tag)).2 <;> exact ⟨rfl, rfl, rfl⟩
    · exact ⟨rfl, rfl, rfl⟩
  | other tag => exact ⟨rfl, rfl, rfl⟩

theorem Model.sendToAPI_eq (m m1 : Model) (ha : m1.apiMessages = m.apiMessages)
    (hc : m1.tools = m.tools ∧ m1.client = m.client ∧ m1.model = m.model) :
    m1.sendToAPI = m.sendToAPI := by
  simp [Model.sendToAPI, ha, hc.1, hc.2.1, hc.2.2]

theorem Model.handleSpinnerTick_frame (B : Bubbles) (m : Model) (msg : Msg) :
    (m.handleSpinnerTick B msg).1.apiMessages = m.apiMessages ∧
    (m.handleSpinnerTick B msg).1.waiting = m.waiting ∧
    ((m.handleSpinnerTick B msg).2 = none ∨
      ∃ t : Nat, (m.handleSpinnerTick B msg).2 = some (Cmd.widget t)) := by
  unfold Model.handleSpinnerTick
  split_ifs
  · refine ⟨rfl, rfl, ?_⟩
    cases h : (B.spinnerUpdate m.spinner msg).2 with
    | none => exact Or.inl (by simp [h])
    | some t => exact Or.inr ⟨t, by simp [h]⟩
  · exact ⟨rfl, rfl, Or.inl rfl⟩

/-- What `Update` does with a message that is no result message: either the transcript and
`waiting` stay as they are and no call is returned, or the message is an accepted submission. -/
theorem Model.Update_input (B : Bubbles) (m : Model) (msg : Msg) (h : msg.isResult = false) :
    ((m.Update B msg).1.apiMessages = m.apiMessages ∧
      (m.Update B msg).1.waiting = m.waiting ∧
      (m.Update B msg).2.filter Cmd.isCall = [] ∧ ¬ (Event.input msg).submits m) ∨
    ((Event.input msg).submits m ∧
      (m.Update B msg).1.apiMessages =
        m.apiMessages ++ [UserMessage (strings.TrimSpace m.textarea.value)] ∧
      (m.Update B msg).1.waiting = true ∧
      (m.Update B msg).2.filter Cmd.isCall = [(m.Update B msg).1.sendToAPI]) := by
  cases msg with
  | WindowSizeMsg Width Height =>
    exact Or.inl ⟨rfl, rfl, Model.updateWidgets_calls B _ _ [], fun hs => hs⟩
  | KeyMsg type runes =>
    cases type with
    | KeyCtrlC => exact Or.inl ⟨rfl, rfl, rfl, fun hs => hs⟩
    | KeyEnter =>
      by_cases hw : m.waiting = true
      · left
        simp only [Model.Update, Model.handleKeyPress_waiting m hw]
        refine ⟨rfl, rfl, Model.updateWidgets_calls B _ _ [], fun hs => ?_⟩
        have hf : m.waiting = false := (show m.waiting = false ∧ _ from hs).1
        rw [hw] at hf
        exact Bool.noConfusion hf
      · have hw1 : m.waiting = false := by simpa using hw
        by_cases ht : strings.TrimSpace m.textarea.value = ""
        · left
          simp only [Model.Update, Model.handleKeyPress_blank m hw1 ht]
          exact ⟨rfl, rfl, Model.updateWidgets_calls B _ _ [],
            fun hs => (show m.waiting = false ∧ _ from hs).2 ht⟩
        · right
          obtain ⟨m1, h1, h2, -, h4, -⟩ := Model.handleKeyPress_submit m hw1 ht
          have hc := Model.Update_config B m (.KeyMsg .KeyEnter runes)
          simp only [Model.Update, h1] at hc ⊢
          refine ⟨⟨hw1, ht⟩, h2, h4, ?_⟩
          simp [Cmd.isCall, Model.sendToAPI, h2, hc.1, hc.2.1, hc.2.2]
    | KeyRunes => exact Or.inl ⟨rfl, rfl, Model.updateWidgets_calls B _ _ [], fun hs => hs⟩
    | KeyOther code => exact Or.inl ⟨rfl, rfl, Model.updateWidgets_calls B _ _ [], fun hs => hs⟩
  | apiResponseMsg choice => simp [Msg.isResult] at h
  | apiErrorMsg err => simp [Msg.isResult] at h
  | toolResultsMsg results => simp [Msg.isResult] at h
  | TickMsg tag =>
    left
    obtain ⟨ha, hwt, hc⟩ := Model.handleSpinnerTick_frame B m (.TickMsg tag)
    simp only [Model.Update]
    cases hst : m.handleSpinnerTick B (Msg.TickMsg tag) with
    | mk m1 c =>
      rw [hst] at ha hwt hc
      simp only at ha hwt hc
      rcases hc with rfl | ⟨t, rfl⟩
      · exact ⟨ha, hwt, Model.updateWidgets_calls B _ _ [], fun hs => hs⟩
      · exact ⟨ha, hwt, Model.updateWidgets_calls B _ _ [Cmd.widget t], fun hs => hs⟩
  | other tag => exact Or.inl ⟨rfl, rfl, Model.updateWidgets_calls B _ _ [], fun hs => hs⟩

theorem Session.step_input (rt : Runtime σ) (B : Bubbles) (s : Session σ) (msg : Msg) :
    s.step rt B (.input msg) =
      ⟨(s.model.Update B msg).1, s.world,
        s.outstanding ++ (s.model.Update B msg).2.filter Cmd.isCall⟩ := rfl

theorem Session.step_modelCallDone (rt : Runtime σ) (B : Bubbles) (s : Session σ) (call : Cmd)
    (resp : Except String (List ChatCompletionChoice)) :
    s.step rt B (.modelCallDone call resp) =
      ⟨(s.model.Update B (sendToAPI.run resp)).1, s.world,
        s.outstanding.erase call ++
          (s.model.Update B (sendToAPI.run resp)).2.filter Cmd.isCall⟩ := rfl

theorem Session.step_toolsDone (rt : Runtime σ) (B : Bubbles) (s : Session σ)
    (toolCalls : List ToolCall) :
    s.step rt B (.toolsDone toolCalls) =
      ⟨{ s.model with apiMessages :=
          s.model.apiMessages ++ (executeTools.loop rt toolCalls [] s.world).1 },
        (executeTools.loop rt toolCalls [] s.world).2,
        s.outstanding.erase (Cmd.executeTools toolCalls) ++
          [Cmd.sendToAPI (s.model.apiMessages ++ (executeTools.loop rt toolCalls [] s.world).1)
            s.model.tools s.model.client s.model.model]⟩ := rfl

/-- One step of the event loop keeps the shape of the session; `waiting` turns true exactly at an
accepted submission and false exactly at the end of a turn. -/
theorem Session.step_shape (rt : Runtime σ) (B : Bubbles) (s : Session σ) (ev : Event)
    (hs : s.shape) (he : ev.enabled s) :
    (s.step rt B ev).shape ∧
    (s.model.waiting = false →
      ((s.step rt B ev).model.waiting = true ↔ ev.submits s.model)) ∧
    (s.model.waiting = true → ((s.step rt B ev).model.waiting = false ↔ ev.endsTurn)) := by
  cases ev with
  | input msg =>
    have he1 : msg.isResult = false := he
    have hc := Model.Update_config B s.model msg
    rw [Session.step_input]
    rcases Model.Update_input B s.model msg he1 with
      ⟨ha, hw, hcalls, hns⟩ | ⟨hsub, ha, hw, hcalls⟩
    · have hsend : (s.model.Update B msg).1.sendToAPI = s.model.sendToAPI :=
        Model.sendToAPI_eq _ _ ha hc
      refine ⟨?_, ?_, ?_⟩
      · rcases hs with ⟨ho, hwait, hok⟩ | ⟨ho, hwait, hok⟩ |
          ⟨cs, content, before, hne, ho, hwait, hmsgs, hok⟩
        · exact Or.inl ⟨by simp [ho, hcalls], by simp [hw, hwait], by simp [ha, hok]⟩
        · exact Or.inr (Or.inl ⟨by simp [ho, hcalls, hsend], by simp [hw, hwait],
            by simp [ha, hok]⟩)
        · exact Or.inr (Or.inr ⟨cs, content, before, hne, by simp [ho, hcalls],
            by simp [hw, hwait], by simp [ha, hmsgs], hok⟩)
      · intro hwait
        simp only [hw, hwait]
        exact ⟨fun h => Bool.noConfusion h, fun h => absurd h hns⟩
      · intro hwait
        simp only [hw, hwait]
        exact ⟨fun h => Bool.noConfusion h, fun h => h.elim⟩
    · have hsub1 := hsub
      have hwf : s.model.waiting = false := by
        cases msg with
        | KeyMsg type runes =>
          cases type with
          | KeyEnter => exact (show s.model.waiting = false ∧ _ from hsub).1
          | _ => exact hsub.elim
        | _ => exact hsub.elim
      refine ⟨?_, ?_, ?_⟩
      · rcases hs with ⟨ho, hwait, hok⟩ | ⟨ho, hwait, hok⟩ |
          ⟨cs, content, before, hne, ho, hwait, hmsgs, hok⟩
        · exact Or.inr (Or.inl ⟨by simp [ho, hcalls], hw,
            by simp only [ha]; exact transcriptOK_append_user _ _ hok⟩)
        · rw [hwf] at hwait; exact Bool.noConfusion hwait
        · rw [hwf] at hwait; exact Bool.noConfusion hwait
      · intro _
        exact ⟨fun _ => hsub1, fun _ => hw⟩
      · intro hwait
        rw [hwf] at hwait; exact Bool.noConfusion hwait
  | modelCallDone call resp =>
    obtain ⟨hcall, hmem⟩ : call.isModelCall = true ∧ call ∈ s.outstanding := he
    rw [Session.step_modelCallDone]
    rcases hs with ⟨ho, hwait, hok⟩ | ⟨ho, hwait, hok⟩ |
      ⟨cs, content, before, hne, ho, hwait, hmsgs, hok⟩
    · rw [ho] at hmem; exact absurd hmem (List.not_mem_nil _)
    · have hceq : call = s.model.sendToAPI := by simpa [ho] using hmem
      have herase : s.outstanding.erase call = [] := by simp [ho, hceq]
      rw [herase]
      have herr : ∀ err : String, sendToAPI.run resp = .apiErrorMsg err →
          (Session.mk (s.model.Update B (sendToAPI.run resp)).1 s.world
            ([] ++ (s.model.Update B (sendToAPI.run resp)).2.filter Cmd.isCall)).shape ∧
          (s.model.waiting = false →
            ((s.model.Update B (sendToAPI.run resp)).1.waiting = true ↔
              (Event.modelCallDone call resp).submits s.model)) ∧
          (s.model.waiting = true →
            ((s.model.Update B (sendToAPI.run resp)).1.waiting = false ↔
              (Event.modelCallDone call resp).endsTurn)) := by
        intro err hrun
        have hends : (Event.modelCallDone call resp).endsTurn := by
          simp only [Event.endsTurn, hrun]
        rw [hrun]
        refine ⟨Or.inl ⟨?_, rfl, hok⟩, fun hf => ?_, fun _ => ⟨fun _ => hends, fun _ => rfl⟩⟩
        · simp only [Model.Update, List.nil_append]
          exact Model.updateWidgets_calls B _ _ []
        · rw [hf] at hwait; exact Bool.noConfusion hwait
      cases resp with
      | error err => exact herr err rfl
      | ok choices =>
        cases choices with
        | nil => exact herr _ rfl
        | cons choice rest =>
          have hrun : sendToAPI.run (.ok (choice :: rest)) = .apiResponseMsg choice := rfl
          rw [hrun]
          by_cases htc : choice.Message.ToolCalls = []
          · obtain ⟨m1, h1, h2, -, h4⟩ := Model.handleAPIResponse_final s.model choice htc
            have hends : (Event.modelCallDone call (.ok (choice :: rest))).endsTurn := by
              simp only [Event.endsTurn, hrun]; exact htc
            simp only [Model.Update, h1]
            refine ⟨Or.inl ⟨?_, h4, ?_⟩, fun hf => ?_, fun _ => ⟨fun _ => hends, fun _ => h4⟩⟩
            · simp only [List.nil_append]
              exact Model.updateWidgets_calls B _ _ []
            · simp only [Model.updateWidgets_apiMessages, h2]
              exact transcriptOK_append_final _ _ hok
            · rw [hf] at hwait; exact Bool.noConfusion hwait
          · obtain ⟨m1, h1, h2, h3⟩ := Model.handleAPIResponse_tools s.model choice htc
            have hnends : ¬ (Event.modelCallDone call (.ok (choice :: rest))).endsTurn := by
              simp only [Event.endsTurn, hrun]; exact htc
            simp only [Model.Update, h1]
            refine ⟨Or.inr (Or.inr ⟨choice.Message.ToolCalls, choice.Message.Content,
                s.model.apiMessages, htc, by simp [Cmd.isCall], by rw [h3]; exact hwait, h2, hok⟩),
              fun hf => ?_, fun _ => ⟨fun h => ?_, fun h => absurd h hnends⟩⟩
            · rw [hf] at hwait; exact Bool.noConfusion hwait
            · rw [h3, hwait] at h; exact Bool.noConfusion h
    · have hceq : call = Cmd.executeTools cs := by simpa [ho] using hmem
      rw [hceq] at hcall
      exact Bool.noConfusion hcall
  | toolsDone toolCalls =>
    have hmem : Cmd.executeTools toolCalls ∈ s.outstanding := he
    rw [Session.step_toolsDone]
    rcases hs with ⟨ho, hwait, hok⟩ | ⟨ho, hwait, hok⟩ |
      ⟨cs, content, before, hne, ho, hwait, hmsgs, hok⟩
    · rw [ho] at hmem; exact absurd hmem (List.not_mem_nil _)
    · rw [ho] at hmem
      simp [Model.sendToAPI] at hmem
    · have hceq : toolCalls = cs := by simpa [ho] using hmem
      subst hceq
      refine ⟨Or.inr (Or.inl ⟨by simp [ho, Model.sendToAPI], hwait, ?_⟩),
        fun hf => ?_, fun _ => ⟨fun h => ?_, fun h => h.elim⟩⟩
      · simp only [hmsgs]
        exact transcriptOK_append_results rt before content toolCalls s.world hok
      · rw [hf] at hwait; exact Bool.noConfusion hwait
      · rw [show (Model.waiting { s.model with apiMessages := s.model.apiMessages ++
            (executeTools.loop rt toolCalls [] s.world).1 }) = s.model.waiting from rfl,
          hwait] at h
        exact Bool.noConfusion h

/-- Every session reachable from `NewModel` has the shape of `Session.shape`. -/
theorem Reachable.shape {rt : Runtime σ} {B : Bubbles} {client : String} {toolDefs : List String}
    {model : String} {w0 : σ} {s : Session σ}
    (hr : Reachable rt B client toolDefs model w0 s) : s.shape := by
  induction hr with
  | init => exact Or.inl ⟨rfl, rfl, rfl⟩
  | step ev _ he ih => exact (Session.step_shape rt B _ ev ih he).1

theorem expectAfterAll_sound (due : List String) (messages : List Message)
    (h : expectAfterAll due messages = some []) :
    (∀ (j : Nat) (id : String), due[j]? = some id →
      ∃ result : String, messages[j]? = some (Message.OfTool result id)) ∧
    (∀ result id : String, messages[due.length]? ≠ some (Message.OfTool result id)) ∧
    (∀ (i : Nat) (content : String) (toolCalls : List ToolCallParam),
      messages[i]? = some (Message.OfAssistant content toolCalls) →
        (∀ (j : Nat) (c : ToolCallParam), toolCalls[j]? = some c →
          ∃ result : String, messages[i + 1 + j]? = some (Message.OfTool result c.ID)) ∧
        (∀ result id : String,
          messages[i + 1 + toolCalls.length]? ≠ some (Message.OfTool result id))) ∧
    (∀ (k : Nat) (result id : String), messages[k]? = some (Message.OfTool result id) →
      k < due.length ∨
      ∃ (i : Nat) (content : String) (toolCalls : List ToolCallParam),
        messages[i]? = some (Message.OfAssistant content toolCalls) ∧ i < k ∧
          k ≤ i + toolCalls.length) := by
  induction messages generalizing due with
  | nil =>
    have hd : due = [] := by simpa [expectAfterAll] using h
    subst hd
    simp
  | cons m rest ih =>
    simp only [expectAfterAll] at h
    cases hm : expectAfter due m with
    | none => simp [hm] at h
    | some due1 =>
      rw [hm] at h
      obtain ⟨iha, ihb, ihc, ihd⟩ := ih due1 h
      -- the clauses about the messages after the first one, moved one position up
      have hc1 : ∀ (i : Nat) (content : String) (toolCalls : List ToolCallParam),
          (m :: rest)[i + 1]? = some (Message.OfAssistant content toolCalls) →
          (∀ (j : Nat) (c : ToolCallParam), toolCalls[j]? = some c →
            ∃ result : String, (m :: rest)[i + 1 + 1 + j]? = some (Message.OfTool result c.ID)) ∧
          (∀ result id : String,
            (m :: rest)[i + 1 + 1 + toolCalls.length]? ≠ some (Message.OfTool result id)) := by
        intro i content toolCalls hi
        obtain ⟨h1, h2⟩ := ihc i content toolCalls (by simpa using hi)
        refine ⟨fun j c hj => ?_, fun result id => ?_⟩
        · obtain ⟨result, hr⟩ := h1 j c hj
          exact ⟨result, by rw [show i + 1 + 1 + j = (i + 1 + j) + 1 by omega]; simpa using hr⟩
        · rw [show i + 1 + 1 + toolCalls.length = (i + 1 + toolCalls.length) + 1 by omega]
          simpa using h2 result id
      have hd1 : ∀ (k : Nat) (result id : String),
          (m :: rest)[k + 1]? = some (Message.OfTool result id) →
          k < due1.length ∨
          ∃ (i : Nat) (content : String) (toolCalls : List ToolCallParam),
            (m :: rest)[i]? = some (Message.OfAssistant content toolCalls) ∧ i < k + 1 ∧
              k + 1 ≤ i + toolCalls.length := by
        intro k result id hk
        rcases ihd k result id (by simpa using hk) with hlt | ⟨i, content, toolCalls, hi, h1, h2⟩
        · exact Or.inl hlt
        · exact Or.inr ⟨i + 1, content, toolCalls, by simpa using hi, by omega, by omega⟩
      cases due with
      | nil =>
        cases m with
        | OfTool content toolCallID => simp [expectAfter] at hm
        | OfAssistant content toolCalls =>
          have hdue : due1 = toolCalls.map fun tc => tc.ID := by
            simpa [expectAfter] using hm.symm
          subst hdue
          refine ⟨by simp, by simp, fun i => ?_, fun k => ?_⟩
          · cases i with
            | zero =>
              intro content1 toolCalls1 hi
              obtain ⟨rfl, rfl⟩ : content = content1 ∧ toolCalls = toolCalls1 := by
                simpa using hi
              refine ⟨fun j c hj => ?_, fun result id => ?_⟩
              · obtain ⟨result, hr⟩ := iha j c.ID (by simp [hj])
                exact ⟨result, by rw [show 0 + 1 + j = j + 1 by omega]; simpa using hr⟩
              · rw [show 0 + 1 + toolCalls.length = toolCalls.length + 1 by omega]
                simpa using ihb result id
            | succ i => exact hc1 i
          · cases k with
            | zero => intro result id hk; simp at hk
            | succ k =>
              intro result id hk
              rcases hd1 k result id hk with hlt | hex
              · exact Or.inr ⟨0, content, toolCalls, by simp, by omega,
                  by simpa using hlt⟩
              · exact Or.inr hex
        | OfSystem content =>
          have hdue : due1 = [] := by simpa [expectAfter] using hm.symm
          subst hdue
          refine ⟨by simp, by simp, fun i => ?_, fun k => ?_⟩
          · cases i with
            | zero => intro content1 toolCalls1 hi; simp at hi
            | succ i => exact hc1 i
          · cases k with
            | zero => intro result id hk; simp at hk
            | succ k =>
              intro result id hk
              rcases hd1 k result id hk with hlt | hex
              · simp at hlt
              · exact Or.inr hex
        | OfUser content =>
          have hdue : due1 = [] := by simpa [expectAfter] using hm.symm
          subst hdue
          refine ⟨by simp, by simp, fun i => ?_, fun k => ?_⟩
          · cases i with
            | zero => intro content1 toolCalls1 hi; simp at hi
            | succ i => exact hc1 i
          · cases k with
            | zero => intro result id hk; simp at hk
            | succ k =>
              intro result id hk
              rcases hd1 k result id hk with hlt | hex
              · simp at hlt
              · exact Or.inr hex
      | cons id0 ids =>
        cases m with
        | OfTool content toolCallID =>
          have hm1 : toolCallID = id0 ∧ ids = due1 := by
            simp only [expectAfter] at hm
            split_ifs at hm with hid
            exact ⟨hid, by simpa using hm⟩
          obtain ⟨rfl, rfl⟩ := hm1
          refine ⟨fun j => ?_, fun result id => ?_, fun i => ?_, fun k => ?_⟩
          · cases j with
            | zero => intro id hj; exact ⟨content, by simpa using hj⟩
            | succ j => intro id hj; simpa using iha j id (by simpa using hj)
          · simpa using ihb result id
          · cases i with
            | zero => intro content1 toolCalls1 hi; simp at hi
            | succ i => exact hc1 i
          · cases k with
            | zero => intro result id hk; exact Or.inl (by simp)
            | succ k =>
              intro result id hk
              rcases hd1 k result id hk with hlt | hex
              · exact Or.inl (by simpa using hlt)
              · exact Or.inr hex
        | OfAssistant content toolCalls => simp [expectAfter] at hm
        | OfSystem content => simp [expectAfter] at hm
        | OfUser content => simp [expectAfter] at hm

theorem transcriptOK_sound (messages : List Message) (h : transcriptOK messages = true) :
    TranscriptInvariant messages := by
  obtain ⟨-, -, hc, hd⟩ := expectAfterAll_sound [] messages ((transcriptOK_iff messages).mp h)
  refine ⟨hc, fun k result id hk => ?_⟩
  rcases hd k result id hk with hlt | hex
  · simp at hlt
  · exact hex

theorem typedSession_reachable :
    Reachable emptyMachine plainBubbles "client" [] "model" [] typedSession :=
  Reachable.step _ Reachable.init rfl

theorem submittedSession_reachable :
    Reachable emptyMachine plainBubbles "client" [] "model" [] submittedSession :=
  Reachable.step _ typedSession_reachable rfl

set_option maxRecDepth 4096 in
theorem toolCallSession_reachable :
    Reachable emptyMachine plainBubbles "client" [] "model" [] toolCallSession :=
  Reachable.step _ submittedSession_reachable ⟨rfl, by decide⟩

set_option maxRecDepth 4096 in
/-- A turn with one tool call, step by step: every session of it is reachable, the tool batch is
outstanding while the tool runs, and the turn ends idle with the transcript system, user,
assistant with the call, tool result, assistant. -/
theorem finalSession_run :
    Reachable emptyMachine plainBubbles "client" [] "model" [] toolCallSession ∧
    toolCallSession.outstanding = [Cmd.executeTools [lsCall]] ∧
    toolCallSession.model.waiting = true ∧
    Reachable emptyMachine plainBubbles "client" [] "model" [] toolResultSession ∧
    toolResultSession.world = [SysCall.CombinedOutput "ls ."] ∧
    toolResultSession.outstanding = [toolResultSession.model.sendToAPI] ∧
    Reachable emptyMachine plainBubbles "client" [] "model" [] finalSession ∧
    finalSession.outstanding = [] ∧
    finalSession.model.waiting = false ∧
    finalSession.model.apiMessages =
      (NewModel "client" [] "model").apiMessages ++
        [Message.OfUser "hi",
          Message.OfAssistant "" [⟨"call_1", ⟨"Bash", "\x7b\"command\": \"ls .\"\x7d"⟩⟩],
          Message.OfTool "" "call_1", Message.OfAssistant "done" []] ∧
    finalSession.model.messages.map (fun entry => entry.style) =
      [Style.welcomeStyle, Style.userStyle, Style.toolCallStyle, Style.assistantStyle] := by
  have h2 : Reachable emptyMachine plainBubbles "client" [] "model" [] toolResultSession :=
    Reachable.step _ toolCallSession_reachable
      (show Cmd.executeTools [lsCall] ∈ toolCallSession.outstanding by decide)
  have h3 : Reachable emptyMachine plainBubbles "client" [] "model" [] finalSession :=
    Reachable.step _ h2 ⟨rfl, by decide⟩
  exact ⟨toolCallSession_reachable, by decide, by decide, h2, by decide, by decide, h3,
    by decide, by decide, by decide, by decide⟩

/-- C2: in every run from `NewModel` in which a result message is delivered only for a command
that is outstanding, every message list handed to a model call by `sendToAPI` is the transcript
as it stands and satisfies the transcript invariant: each `Assistant` message with tool calls
`c1..cn` is immediately followed by exactly `n` `Tool` messages with the ids of `c1..cn` in that
order, and no `Tool` message occurs anywhere else. -/
theorem sendToAPI_transcript_invariant (rt : Runtime σ) (B : Bubbles) (client : String)
    (toolDefs : List String) (model : String) (w0 : σ) (s : Session σ) (ev : Event)
    (hr : Reachable rt B client toolDefs model w0 s) (he : ev.enabled s)
    (messages : List Message) (tools : List String) (cl mdl : String)
    (hcmd : Cmd.sendToAPI messages tools cl mdl ∈
      (s.model.Update B (ev.msg rt s.world).1).2) :
    messages = (s.step rt B ev).model.apiMessages ∧ TranscriptInvariant messages ∧
      transcriptOK messages = true := by
  have hshape := (Reachable.step ev hr he).shape
  have hout : Cmd.sendToAPI messages tools cl mdl ∈ (s.step rt B ev).outstanding := by
    simp only [Session.step]
    exact List.mem_append_right _ (List.mem_filter.mpr ⟨hcmd, rfl⟩)
  rcases hshape with ⟨ho, -, -⟩ | ⟨ho, -, hok⟩ | ⟨cs, content, before, -, ho, -, -, -⟩
  · rw [ho] at hout; exact absurd hout (List.not_mem_nil _)
  · rw [ho] at hout
    have hm : messages = (s.step rt B ev).model.apiMessages := by
      simp only [List.mem_singleton, Model.sendToAPI, Cmd.sendToAPI.injEq] at hout
      exact hout.1
    rw [hm]
    exact ⟨rfl, transcriptOK_sound _ hok, hok⟩
  · rw [ho] at hout
    simp at hout

set_option maxRecDepth 4096 in
theorem sendToAPI_transcript_invariant_witness :
    Reachable emptyMachine plainBubbles "client" [] "model" [] toolCallSession ∧
    (Event.toolsDone [lsCall]).enabled toolCallSession ∧
    Cmd.sendToAPI
        ((NewModel "client" [] "model").apiMessages ++
          [Message.OfUser "hi",
            Message.OfAssistant "" [⟨"call_1", ⟨"Bash", "\x7b\"command\": \"ls .\"\x7d"⟩⟩],
            Message.OfTool "" "call_1"])
        [] "client" "model" ∈
      (toolCallSession.model.Update plainBubbles
        ((Event.toolsDone [lsCall]).msg emptyMachine toolCallSession.world).1).2 ∧
    ((NewModel "client" [] "model").apiMessages ++
          [Message.OfUser "hi",
            Message.OfAssistant "" [⟨"call_1", ⟨"Bash", "\x7b\"command\": \"ls .\"\x7d"⟩⟩],
            Message.OfTool "" "call_1"] =
        (toolCallSession.step emptyMachine plainBubbles
          (.toolsDone [lsCall])).model.apiMessages ∧
      TranscriptInvariant
        ((NewModel "client" [] "model").apiMessages ++
          [Message.OfUser "hi",
            Message.OfAssistant "" [⟨"call_1", ⟨"Bash", "\x7b\"command\": \"ls .\"\x7d"⟩⟩],
            Message.OfTool "" "call_1"]) ∧
      transcriptOK
        ((NewModel "client" [] "model").apiMessages ++
          [Message.OfUser "hi",
            Message.OfAssistant "" [⟨"call_1", ⟨"Bash", "\x7b\"command\": \"ls .\"\x7d"⟩⟩],
            Message.OfTool "" "call_1"]) = true) :=
  have henabled : (Event.toolsDone [lsCall]).enabled toolCallSession :=
    show Cmd.executeTools [lsCall] ∈ toolCallSession.outstanding by decide
  have hcmd : Cmd.sendToAPI
        ((NewModel "client" [] "model").apiMessages ++
          [Message.OfUser "hi",
            Message.OfAssistant "" [⟨"call_1", ⟨"Bash", "\x7b\"command\": \"ls .\"\x7d"⟩⟩],
            Message.OfTool "" "call_1"])
        [] "client" "model" ∈
      (toolCallSession.model.Update plainBubbles
        ((Event.toolsDone [lsCall]).msg emptyMachine toolCallSession.world).1).2 := by
    decide
  ⟨toolCallSession_reachable, henabled, hcmd,
    sendToAPI_transcript_invariant emptyMachine plainBubbles "client" [] "model" []
      toolCallSession (.toolsDone [lsCall]) toolCallSession_reachable henabled _ _ _ _ hcmd⟩

/-- C4: in every session reachable from `NewModel`, where a model call or tool batch is
outstanding from the step that returns its command until the step that receives its result
message, at most one model call or tool batch is outstanding, so that no two model calls are in
flight at once, and `waiting` is true exactly when one is outstanding; `waiting` turns true exactly
at an accepted user submission, and turns false exactly when a response with zero tool calls or an
`apiErrorMsg` is handled. -/
theorem waiting_iff_call_outstanding (rt : Runtime σ) (B : Bubbles) (client : String)
    (toolDefs : List String) (model : String) (w0 : σ) (s : Session σ)
    (hr : Reachable rt B client toolDefs model w0 s) :
    s.outstanding.length ≤ 1 ∧
    (s.outstanding.filter Cmd.isModelCall).length ≤ 1 ∧
    (∀ c ∈ s.outstanding, c.isCall = true) ∧
    (s.model.waiting = true ↔ s.outstanding ≠ []) ∧
    ∀ ev : Event, ev.enabled s →
      (s.model.waiting = false →
        ((s.step rt B ev).model.waiting = true ↔ ev.submits s.model)) ∧
      (s.model.waiting = true →
        ((s.step rt B ev).model.waiting = false ↔ ev.endsTurn)) := by
  have hshape := hr.shape
  refine ⟨?_, ?_, ?_, ?_, fun ev he => (Session.step_shape rt B s ev hshape he).2⟩
  · rcases hshape with ⟨ho, -, -⟩ | ⟨ho, -, -⟩ | ⟨cs, content, before, -, ho, -, -, -⟩ <;>
      simp [ho]
  · rcases hshape with ⟨ho, -, -⟩ | ⟨ho, -, -⟩ | ⟨cs, content, before, -, ho, -, -, -⟩ <;>
      simp [ho, Cmd.isModelCall, Model.sendToAPI]
  · rcases hshape with ⟨ho, -, -⟩ | ⟨ho, -, -⟩ | ⟨cs, content, before, -, ho, -, -, -⟩ <;>
      simp [ho, Cmd.isCall, Model.sendToAPI]
  · rcases hshape with ⟨ho, hw, -⟩ | ⟨ho, hw, -⟩ | ⟨cs, content, before, -, ho, hw, -, -⟩ <;>
      simp [ho, hw]

theorem waiting_iff_call_outstanding_witness :
    Reachable emptyMachine plainBubbles "client" [] "model" [] submittedSession ∧
    submittedSession.model.waiting = true ∧
    submittedSession.outstanding =
      [Cmd.sendToAPI ((NewModel "client" [] "model").apiMessages ++ [UserMessage "hi"])
        [] "client" "model"] ∧
    submittedSession.outstanding.length ≤ 1 ∧
    (submittedSession.outstanding.filter Cmd.isModelCall).length ≤ 1 ∧
    (submittedSession.model.waiting = true ↔ submittedSession.outstanding ≠ []) :=
  have h := waiting_iff_call_outstanding emptyMachine plainBubbles "client" [] "model" []
    submittedSession submittedSession_reachable
  ⟨submittedSession_reachable, by decide, by decide, h.1, h.2.1, h.2.2.2.1⟩

end Clio
